import Mathlib

/-!
# A shallow embedding of the Apollo `EntityStore` (normalized in-memory cache)

This file embeds the entity store of the repository (`src/unnamed/part_000`):
the layered `EntityStore` (Root / Stump / Layer chain), its `CacheGroup`
dependency tracker, the `merge` / `modify` / `delete` / `evict` write path,
`retain` / `release` and the mark-and-sweep `gc`.

Modelling conventions:
* JavaScript store values (`StoreValue`) become the inductive `SVal`.
  Mutable JS objects (nested store objects, arrays, `Reference` objects)
  carry a `tag : Nat` standing for their memory address, so that Lean
  equality of `SVal` models JavaScript `===` (identity for objects,
  value equality for primitives, which are untagged).
* JS records (`StoreObject`, `NormalizedCacheObject`, `refs`, `rootIds`)
  become insertion-ordered association lists; setting an existing key
  rewrites it in place, setting a fresh key appends — matching JS
  property-order semantics.
* An entry `(id, none)` in a store's `data` models `data[id] = undefined`
  (the explicit deletion shadow written by `modify` on a Layer);
  a missing key models an absent property.
* The stores are modelled by the inductive `Chain`: the store an operation
  is invoked on is the head, its `parent` links are the tail.  Operations
  return the updated chain; this is the faithful translation of the
  mutable JS object graph, in which an operation only ever mutates the
  store it is invoked on (plus, for `Stump.merge`, `evict` and `gc`,
  stores reached through explicit `parent` / root traversal).
* `group.dirty` calls that reach the underlying dependency primitive
  (i.e. when result caching is enabled) are recorded in an event list of
  `(group id, dependency key)` pairs; the Root store owns group `0` and
  the Stump and every Layer share group `1`, whose parent is group `0`.
-/

/-! ## Association lists (JS objects as insertion-ordered key/value maps) -/

/-- `alookup l k` is JS property read `l[k]` (`none` = absent property). -/
def alookup {α : Type} : List (String × α) → String → Option α
  | [], _ => none
  | (k', v) :: rest, k => if k' = k then some v else alookup rest k

/-- `amem l k` is JS `hasOwnProperty.call(l, k)`. -/
def amem {α : Type} (l : List (String × α)) (k : String) : Bool :=
  (alookup l k).isSome

/-- `aset l k v` is JS assignment `l[k] = v`: rewrite the key in place if
present, append it otherwise. -/
def aset {α : Type} : List (String × α) → String → α → List (String × α)
  | [], k, v => [(k, v)]
  | (k', v') :: rest, k, v =>
      if k' = k then (k, v) :: rest else (k', v') :: aset rest k v

/-- `aremove l k` is JS `delete l[k]`. -/
def aremove {α : Type} (l : List (String × α)) (k : String) : List (String × α) :=
  l.filter (fun p => p.1 ≠ k)

/-- `akeys l` is JS `Object.keys(l)`. -/
def akeys {α : Type} (l : List (String × α)) : List String :=
  l.map Prod.fst

theorem alookup_aset_self {α : Type} (l : List (String × α)) (k : String) (v : α) :
    alookup (aset l k v) k = some v := by
  induction l with
  | nil => simp [aset, alookup]
  | cons p rest ih =>
      obtain ⟨k', v'⟩ := p
      by_cases h : k' = k <;> simp [aset, alookup, h, ih]

theorem alookup_aset_ne {α : Type} (l : List (String × α)) (k k' : String) (v : α)
    (h : k ≠ k') : alookup (aset l k v) k' = alookup l k' := by
  induction l with
  | nil => simp [aset, alookup, h]
  | cons p rest ih =>
      obtain ⟨k₀, v₀⟩ := p
      by_cases h0 : k₀ = k
      · subst h0; simp [aset, alookup, h]
      · simp only [aset, if_neg h0, alookup]
        by_cases h1 : k₀ = k' <;> simp [h1, ih]

/-- Rewriting a key with the value it already holds leaves the list intact. -/
theorem aset_self {α : Type} (l : List (String × α)) (k : String) (v : α)
    (h : alookup l k = some v) : aset l k v = l := by
  induction l with
  | nil => simp [alookup] at h
  | cons p rest ih =>
      obtain ⟨k', v'⟩ := p
      by_cases hk : k' = k
      · subst hk
        have h' : v' = v := by simpa [alookup] using h
        simp [aset, h']
      · simp only [alookup, if_neg hk] at h
        simp [aset, hk, ih h]

theorem akeys_aset {α : Type} (l : List (String × α)) (k : String) (v : α)
    (h : amem l k = true) : akeys (aset l k v) = akeys l := by
  induction l with
  | nil => simp [amem, alookup] at h
  | cons p rest ih =>
      obtain ⟨k', v'⟩ := p
      by_cases hk : k' = k
      · subst hk; simp [aset, akeys]
      · simp only [amem, alookup, if_neg hk] at h
        simp [aset, hk, akeys] at ih ⊢
        exact ih h

theorem mem_akeys_iff_amem {α : Type} (l : List (String × α)) (k : String) :
    k ∈ akeys l ↔ amem l k = true := by
  induction l with
  | nil => simp [akeys, amem, alookup]
  | cons p rest ih =>
      obtain ⟨k', v'⟩ := p
      by_cases hk : k' = k
      · subst hk; simp [akeys, amem, alookup]
      · simp [akeys, amem, alookup, hk, Ne.symm hk] at ih ⊢
        exact ih

theorem aremove_cons_self {α : Type} (rest : List (String × α)) (k : String) (v : α) :
    aremove ((k, v) :: rest) k = aremove rest k := by
  simp [aremove, List.filter_cons]

theorem aremove_cons_ne {α : Type} (rest : List (String × α)) (k₀ k : String) (v : α)
    (h : k₀ ≠ k) : aremove ((k₀, v) :: rest) k = (k₀, v) :: aremove rest k := by
  simp [aremove, List.filter_cons, h]

theorem alookup_aremove_ne {α : Type} (l : List (String × α)) (k k' : String)
    (h : k ≠ k') : alookup (aremove l k) k' = alookup l k' := by
  induction l with
  | nil => simp [aremove]
  | cons p rest ih =>
      obtain ⟨k₀, v₀⟩ := p
      by_cases h0 : k₀ = k
      · subst h0
        rw [aremove_cons_self, ih, alookup, if_neg h]
      · rw [aremove_cons_ne rest k₀ k v₀ h0]
        by_cases h1 : k₀ = k'
        · simp [alookup, h1]
        · simp [alookup, h1, ih]

theorem alookup_aremove_self {α : Type} (l : List (String × α)) (k : String) :
    alookup (aremove l k) k = none := by
  induction l with
  | nil => simp [aremove, alookup]
  | cons p rest ih =>
      obtain ⟨k₀, v₀⟩ := p
      by_cases h0 : k₀ = k
      · subst h0
        rw [aremove_cons_self]; exact ih
      · rw [aremove_cons_ne rest k₀ k v₀ h0, alookup, if_neg h0]
        exact ih

theorem aremove_length_le {α : Type} (l : List (String × α)) (k : String) :
    (aremove l k).length ≤ l.length :=
  List.length_filter_le _ l

theorem aremove_length_lt {α : Type} (l : List (String × α)) (k : String)
    (h : amem l k = true) : (aremove l k).length < l.length := by
  induction l with
  | nil => simp [amem, alookup] at h
  | cons p rest ih =>
      obtain ⟨k₀, v₀⟩ := p
      by_cases h0 : k₀ = k
      · subst h0
        rw [aremove_cons_self]
        simp only [List.length_cons]
        exact Nat.lt_succ_of_le (aremove_length_le rest k₀)
      · simp only [amem, alookup, if_neg h0] at h
        rw [aremove_cons_ne rest k₀ k v₀ h0]
        simp only [List.length_cons]
        exact Nat.succ_lt_succ (ih h)

/-! ## Store values

`SVal` models `StoreValue`.  `ref tag id` is a `Reference` object
`{ __ref: id }`; `obj` / `arr` are nested non-normalized objects and
arrays; `scalar` covers the JS primitives (compared by value, hence no
tag); `undef` is JS `undefined`, `null` is JS `null`. -/

inductive SVal : Type where
  | undef : SVal
  | null : SVal
  | scalar (lit : String) : SVal
  | ref (tag : Nat) (id : String) : SVal
  | arr (tag : Nat) (items : List SVal) : SVal
  | obj (tag : Nat) (fields : List (String × SVal)) : SVal

/-- A `StoreObject`: one entity record, store field name ↦ value. -/
abbrev StoreObject := List (String × SVal)

mutual

def SVal.beq : SVal → SVal → Bool
  | .undef, .undef => true
  | .null, .null => true
  | .scalar a, .scalar b => a == b
  | .ref t i, .ref u j => t == u && i == j
  | .arr t xs, .arr u ys => t == u && beqL xs ys
  | .obj t fs, .obj u gs => t == u && beqF fs gs
  | _, _ => false

def beqL : List SVal → List SVal → Bool
  | [], [] => true
  | x :: xs, y :: ys => SVal.beq x y && beqL xs ys
  | _, _ => false

def beqF : List (String × SVal) → List (String × SVal) → Bool
  | [], [] => true
  | (k, v) :: fs, (l, w) :: gs => k == l && SVal.beq v w && beqF fs gs
  | _, _ => false

end

mutual

theorem SVal.beq_iff : ∀ a b : SVal, SVal.beq a b = true ↔ a = b
  | .undef, b => by cases b <;> simp [SVal.beq]
  | .null, b => by cases b <;> simp [SVal.beq]
  | .scalar a, b => by cases b <;> simp [SVal.beq]
  | .ref t i, b => by cases b <;> simp [SVal.beq]
  | .arr t xs, b => by
      cases b <;> simp [SVal.beq, beqL_iff xs]
  | .obj t fs, b => by
      cases b <;> simp [SVal.beq, beqF_iff fs]

theorem beqL_iff : ∀ xs ys : List SVal, beqL xs ys = true ↔ xs = ys
  | [], ys => by cases ys <;> simp [beqL]
  | x :: xs, ys => by
      cases ys with
      | nil => simp [beqL]
      | cons y ys => simp [beqL, SVal.beq_iff x y, beqL_iff xs ys]

theorem beqF_iff : ∀ fs gs : List (String × SVal), beqF fs gs = true ↔ fs = gs
  | [], gs => by cases gs <;> simp [beqF]
  | (k, v) :: fs, gs => by
      cases gs with
      | nil => simp [beqF]
      | cons g gs =>
          obtain ⟨l, w⟩ := g
          simp [beqF, SVal.beq_iff v w, beqF_iff fs gs, and_assoc]

end

instance : DecidableEq SVal := fun a b =>
  decidable_of_iff (SVal.beq a b = true) (SVal.beq_iff a b)

/-! ## Deep equality

Models `equal` from the external `@wry/equality` package used by
`storeObjectReconciler`: structural equality that ignores object identity
(our tags) and object key order.  Normalization zeroes every tag and
insertion-sorts object fields by key; two values are `equal` iff their
normal forms coincide. -/

def insertByKey (p : String × SVal) : List (String × SVal) → List (String × SVal)
  | [] => [p]
  | q :: rest => if p.1 ≤ q.1 then p :: q :: rest else q :: insertByKey p rest

def sortByKey : List (String × SVal) → List (String × SVal)
  | [] => []
  | p :: rest => insertByKey p (sortByKey rest)

mutual

def SVal.norm : SVal → SVal
  | .undef => .undef
  | .null => .null
  | .scalar s => .scalar s
  | .ref _ i => .ref 0 i
  | .arr _ xs => .arr 0 (normL xs)
  | .obj _ fs => .obj 0 (sortByKey (normF fs))

def normL : List SVal → List SVal
  | [] => []
  | x :: xs => SVal.norm x :: normL xs

def normF : List (String × SVal) → List (String × SVal)
  | [] => []
  | (k, v) :: fs => (k, SVal.norm v) :: normF fs

end

/-- `@wry/equality`'s `equal`, on store values. -/
def equalV (a b : SVal) : Bool := a.norm = b.norm

/-! ## Store field names and dependency keys -/

/-- Modelled from the spec: the repository's `fieldNameFromStoreName` helper
(`helpers` module, not under `src/`).  A store field name is "a field's
name, optionally suffixed with a serialized representation of its
arguments"; the bare field name is the maximal leading run of identifier
characters, or the whole store field name when there is none. -/
def takeWordChars : List Char → List Char
  | [] => []
  | c :: cs => if c.isAlphanum || c == '_' then c :: takeWordChars cs else []

def fieldNameFromStoreName (storeFieldName : String) : String :=
  match takeWordChars storeFieldName.data with
  | [] => storeFieldName
  | cs => String.mk cs

/-- Modelled from the spec: the policy collaborator's `getStoreFieldName`
(`policies` module, not under `src/`): the field name suffixed with the
serialized arguments.  Arguments are modelled as their serialization. -/
def getStoreFieldName (fieldName : String) (args : String) : String :=
  fieldName ++ "(" ++ args ++ ")"

/-- `makeDepKey` (source): field names cannot contain `#`, so
`storeFieldName + '#' + dataId` is an unambiguous composite key. -/
def makeDepKey (dataId : String) (storeFieldName : String) : String :=
  storeFieldName ++ "#" ++ dataId

/-! ## Dependency groups

`CacheGroup` wraps the reactive dependency primitive (`dep` from the
external `optimism` package): `d` is non-null exactly when `caching`
holds.  `depend` / `dirty` return the list of `(group id, dependency key)`
registrations / invalidations that reach the primitive. -/

inductive CacheGroup : Type where
  | mk (gid : Nat) (caching : Bool) (parent : Option CacheGroup)

def CacheGroup.gid : CacheGroup → Nat
  | .mk g _ _ => g

def CacheGroup.caching : CacheGroup → Bool
  | .mk _ c _ => c

def CacheGroup.parent : CacheGroup → Option CacheGroup
  | .mk _ _ p => p

/-- `CacheGroup#depend` (source lines 600–616). -/
def CacheGroup.depend : CacheGroup → String → String → List (Nat × String)
  | .mk g c p, dataId, storeFieldName =>
    if c then
      ((g, makeDepKey dataId storeFieldName) ::
        (if fieldNameFromStoreName storeFieldName ≠ storeFieldName then
          [(g, makeDepKey dataId (fieldNameFromStoreName storeFieldName))]
        else [])) ++
      (match p with
       | some pg => CacheGroup.depend pg dataId storeFieldName
       | none => [])
    else []

/-- `CacheGroup#dirty` (source lines 618–622). -/
def CacheGroup.dirty : CacheGroup → String → String → List (Nat × String)
  | .mk g c _, dataId, storeFieldName =>
    if c then [(g, makeDepKey dataId storeFieldName)] else []

/-! ## Policies (external identity/typename collaborator) and context -/

/-- Modelled from the spec: the slice of the external `Policies`
collaborator the entity store consumes — the table of well-known singleton
root ids mapped to default typenames, and the predicate telling whether a
`(typename, field)` pair has `keyArgs` configured. -/
structure Policies : Type where
  rootTypenamesById : List (String × String)
  hasKeyArgs : Option String → String → Bool

/-- Ambient configuration of one cache instance: its policies and whether
result caching (dependency tracking) is enabled. -/
structure Ctx : Type where
  policies : Policies
  resultCaching : Bool

/-! ## The store chain -/

/-- Mutable state owned by one `EntityStore` object: its entity partition
`data`, its memoized reference-graph cache `refs`, and its retained-id
table `rootIds`. -/
structure StoreState : Type where
  data : List (String × Option StoreObject)
  refs : List (String × List String)
  rootIds : List (String × Nat)

def emptyState : StoreState := ⟨[], [], []⟩

/-- The store an operation is invoked on, with its parent links: a `Root`,
or a `Layer` (`isStump` marks the permanently installed `Stump`). -/
inductive Chain : Type where
  | root (s : StoreState)
  | layer (id : String) (isStump : Bool) (s : StoreState) (parent : Chain)

def Chain.headState : Chain → StoreState
  | .root s => s
  | .layer _ _ s _ => s

def Chain.setHeadState : Chain → StoreState → Chain
  | .root _, s => .root s
  | .layer id st _ parent, s => .layer id st s parent

/-- `this instanceof Layer` for the head store. -/
def Chain.isLayer : Chain → Bool
  | .root _ => false
  | .layer .. => true

def Chain.depth : Chain → Nat
  | .root _ => 0
  | .layer _ _ _ parent => Chain.depth parent + 1

def Chain.rootState : Chain → StoreState
  | .root s => s
  | .layer _ _ _ parent => Chain.rootState parent

def Chain.setRootState : Chain → StoreState → Chain
  | .root _, s => .root s
  | .layer id st s' parent, s => .layer id st s' (Chain.setRootState parent s)

/-- The local entity partitions of the non-Root stores, innermost first. -/
def Chain.layersData : Chain → List (List (String × Option StoreObject))
  | .root _ => []
  | .layer _ _ s parent => s.data :: Chain.layersData parent

/-- The Root store's group is group `0`; the Stump's group — shared with
every optimistic Layer — is group `1`, chained with the Root's group as
parent (source lines 711–724 and 811–819). -/
def rootGroup (ctx : Ctx) : CacheGroup := .mk 0 ctx.resultCaching none

def optimisticGroup (ctx : Ctx) : CacheGroup :=
  .mk 1 ctx.resultCaching (some (rootGroup ctx))

def Chain.group (ctx : Ctx) : Chain → CacheGroup
  | .root _ => rootGroup ctx
  | .layer .. => optimisticGroup ctx

/-! ## Read path -/

/-- JS object spread `{...parentObj, ...own}`. -/
def spreadOver (parentObj own : List (String × Option StoreObject)) :
    List (String × Option StoreObject) :=
  own.foldl (fun acc p => aset acc p.1 p.2) parentObj

/-- `EntityStore#toObject` (source line 52) and the `Layer` override
(source line 791): Root returns a copy of its data, a Layer overlays its
own data over its parent's. -/
def EntityStore.toObject : Chain → List (String × Option StoreObject)
  | .root s => s.data
  | .layer _ _ s parent => spreadOver (EntityStore.toObject parent) s.data

/-- `EntityStore#lookup` (source lines 77–96), without the
`dependOnExistence` bookkeeping (dependency registrations are not part of
the recorded invalidation events).  A present-but-`undefined` data entry
is returned as `none` without consulting the parent; an absent entry
delegates to the parent; at the Root, a well-known singleton id with a
truthy default typename resolves to a fresh empty record. -/
def EntityStore.lookup (ctx : Ctx) : Chain → String → Option StoreObject
  | .root s, dataId =>
      match alookup s.data dataId with
      | some v => v
      | none =>
          match alookup ctx.policies.rootTypenamesById dataId with
          | some t => if t ≠ "" then some [] else none
          | none => none
  | .layer _ _ s parent, dataId =>
      match alookup s.data dataId with
      | some v => v
      | none => EntityStore.lookup ctx parent dataId

/-- `EntityStore#has` (source line 56). -/
def EntityStore.has (ctx : Ctx) (c : Chain) (dataId : String) : Bool :=
  (EntityStore.lookup ctx c dataId).isSome

/-- The locally stored field value, when the head's data owns `dataId`
with a truthy record owning `fieldName` (source lines 62–67). -/
def getLocal (s : StoreState) (dataId fieldName : String) : Option SVal :=
  match alookup s.data dataId with
  | some (some so) => alookup so fieldName
  | _ => none

/-- `EntityStore#get` (source lines 60–75): local field value if present
(possibly the explicit `undefined` marker), else the default root
typename for `__typename` of a well-known singleton id, else the parent's
`get`, else `undefined`. -/
def EntityStore.get (ctx : Ctx) : Chain → String → String → SVal
  | .root s, dataId, fieldName =>
      match getLocal s dataId fieldName with
      | some v => v
      | none =>
          match (if fieldName = "__typename" then
                  alookup ctx.policies.rootTypenamesById dataId
                else none) with
          | some t => .scalar t
          | none => .undef
  | .layer _ _ s parent, dataId, fieldName =>
      match getLocal s dataId fieldName with
      | some v => v
      | none =>
          match (if fieldName = "__typename" then
                  alookup ctx.policies.rootTypenamesById dataId
                else none) with
          | some t => .scalar t
          | none => EntityStore.get ctx parent dataId fieldName

/-! ## Merge (write path) -/

/-- `storeObjectReconciler` (source lines 836–850): wherever there is a
key collision, prefer the incoming value, unless it is deeply equal to
the existing value, in which case keep the existing value (preserving its
referential identity). -/
def storeObjectReconciler (existingObject incomingObject : StoreObject)
    (storeFieldName : String) : SVal :=
  let existingValue := (alookup existingObject storeFieldName).getD .undef
  let incomingValue := (alookup incomingObject storeFieldName).getD .undef
  if equalV existingValue incomingValue then existingValue else incomingValue

/-- Modelled from the spec: the `DeepMerger` shell from the repository's
utilities module (not under `src/`), specialized to
`storeObjectReconciler` as `new DeepMerger(storeObjectReconciler).merge`
does.  It "combines two entity records field-by-field using a
reconciler": when the target is not an object it returns the source;
otherwise each source key that is absent from the target is copied over,
and each colliding key whose source value is not identical to the target
value is resolved by the reconciler, copying the target on first change.
The returned Bool is `merged !== existing`: whether a copy was made
(or the existing side was no object at all). -/
def DeepMerger.step (incoming : StoreObject) (acc : StoreObject × Bool)
    (sourceKey : String) : StoreObject × Bool :=
  let target := acc.1
  let sourceValue := (alookup incoming sourceKey).getD .undef
  match alookup target sourceKey with
  | some targetValue =>
      if sourceValue = targetValue then acc
      else
        let result := storeObjectReconciler target incoming sourceKey
        if result = targetValue then acc
        else (aset target sourceKey result, true)
  | none => (aset target sourceKey sourceValue, true)

def DeepMerger.merge (existing : Option StoreObject) (incoming : StoreObject) :
    StoreObject × Bool :=
  match existing with
  | none => (incoming, true)
  | some ex => (akeys incoming).foldl (DeepMerger.step incoming) (ex, false)

/-- A `(group id, dependency key)` invalidation event that reached the
underlying dependency primitive. -/
abbrev Evt := Nat × String

/-- Insertion into the `fieldsToDirty: Record<string, 1>` accumulator:
a fresh key is appended, an existing key keeps its position. -/
def fieldsToDirtyAdd (l : List String) (f : String) : List String :=
  if f ∈ l then l else l ++ [f]

/-- `merged.__typename` as handed to `policies.hasKeyArgs`
(a non-string value is treated as no typename). -/
def typenameOf (so : StoreObject) : Option String :=
  match alookup so "__typename" with
  | some (.scalar s) => some s
  | _ => none

/-- JS truthiness of a store value (scalars model strings: only the empty
string is falsy). -/
def SVal.truthy : SVal → Bool
  | .undef => false
  | .null => false
  | .scalar s => s ≠ ""
  | _ => true

/-- JS `this.policies.rootTypenamesById[dataId] === merged.__typename`:
a table hit compares string values, a table miss (`undefined`) is
identical only to an absent / explicitly-`undefined` typename. -/
def rootTypenameMatches (tbl : Option String) (v : SVal) : Bool :=
  match tbl, v with
  | some s, .scalar t => s = t
  | none, .undef => true
  | _, _ => false

/-- The `fieldsToDirty` record computed by `merge` (source lines
129–168): `__exists` when there was no existing record, every incoming
store field name whose merged value is not identical to the prior value,
plus the bare field name when it differs and `keyArgs` is not configured;
a dirtied `__typename` is dropped again when the existing record had no
truthy `__typename` and the merged `__typename` equals the id's default
root typename. -/
def mergeFieldsToDirty (ctx : Ctx) (dataId : String) (existing : Option StoreObject)
    (incoming merged : StoreObject) : List String :=
  let init : List String := if existing.isNone then ["__exists"] else []
  let l := (akeys incoming).foldl
    (fun acc sfn =>
      let changed : Bool :=
        match existing with
        | none => true
        | some ex => (alookup ex sfn).getD .undef ≠ (alookup merged sfn).getD .undef
      if changed then
        let acc' := fieldsToDirtyAdd acc sfn
        let fn := fieldNameFromStoreName sfn
        if fn ≠ sfn && !(ctx.policies.hasKeyArgs (typenameOf merged) fn) then
          fieldsToDirtyAdd acc' fn
        else acc'
      else acc)
    init
  let existingTruthyTypename : Bool :=
    match existing with
    | some ex => ((alookup ex "__typename").getD .undef).truthy
    | none => false
  if l.contains "__typename" && !existingTruthyTypename &&
     rootTypenameMatches (alookup ctx.policies.rootTypenamesById dataId)
       ((alookup merged "__typename").getD .undef) then
    l.filter (fun f => f ≠ "__typename")
  else l

/-- The state-relevant part of the field-removal pass of `merge` (source
lines 219–237): for every incoming field whose value is the explicit
`undefined`, if the merged record still carries that key with value
`undefined` and this store is the Root, the key is physically deleted
from the merged record.  (The `walk`/`dropField` traversal feeding the
external "field dropped" hook has no effect on store state and is not
modelled.) -/
def dropUndefinedKeysAtRoot (incoming merged : StoreObject) : StoreObject :=
  (akeys incoming).foldl
    (fun m sfn =>
      if (alookup incoming sfn).getD .undef = .undef &&
         (match alookup m sfn with | some .undef => true | _ => false) then
        aremove m sfn
      else m)
    merged

/-- `EntityStore#merge` (source lines 98–257) plus the `Stump` override
(source lines 826–833) forwarding every merge to the parent.  `dataId` is
assigned whenever either argument is a string id (the `newer` assignment
executing second and winning); if `newer` is a string that resolves to no
record the call is a no-op; if neither argument is a string the
`invariant` fails with "store.merge expects a string ID".  Otherwise the
records are merged by `DeepMerger.merge`; when the merged record differs
from the existing one the reference-graph entry for `dataId` is
invalidated, the computed `fieldsToDirty` are dirtied in the head's
group, and (at the Root) incoming-`undefined` keys are deleted from the
merged record; in every case the merged record is stored in the head's
local data. -/
def EntityStore.merge (ctx : Ctx) :
    Chain → String ⊕ StoreObject → String ⊕ StoreObject →
    Except String (Chain × List Evt)
  | .layer id true s parent, older, newer =>
      (EntityStore.merge ctx parent older newer).map
        (fun r => (.layer id true s r.1, r.2))
  | c, older, newer =>
      let dataId? : Option String :=
        match newer with
        | .inl i => some i
        | .inr _ =>
            match older with
            | .inl i => some i
            | .inr _ => none
      let existing : Option StoreObject :=
        match older with
        | .inl i => EntityStore.lookup ctx c i
        | .inr o => some o
      let incoming? : Option StoreObject :=
        match newer with
        | .inl i => EntityStore.lookup ctx c i
        | .inr o => some o
      match incoming? with
      | none => .ok (c, [])
      | some incoming =>
          match dataId? with
          | none => .error "store.merge expects a string ID"
          | some dataId =>
              let mc := DeepMerger.merge existing incoming
              let s := c.headState
              let next : StoreState × List Evt :=
                if mc.2 then
                  let evts :=
                    if ctx.resultCaching then
                      (mergeFieldsToDirty ctx dataId existing incoming mc.1).flatMap
                        (fun f => (Chain.group ctx c).dirty dataId f)
                    else []
                  let merged :=
                    if existing.isSome && !c.isLayer then
                      dropUndefinedKeysAtRoot incoming mc.1
                    else mc.1
                  ({ s with data := aset s.data dataId (some merged),
                            refs := aremove s.refs dataId }, evts)
                else
                  ({ s with data := aset s.data dataId (some mc.1) }, [])
              .ok (c.setHeadState next.1, next.2)

/-! ## Modify, delete, evict -/

/-- The result of a field modifier: the `DELETE` sentinel, the
`INVALIDATE` sentinel, or a replacement value. -/
inductive MRes : Type where
  | DELETE : MRes
  | INVALIDATE : MRes
  | value (v : SVal) : MRes

/-- A field modifier.  Modifiers are modelled as pure functions of the
current field value; the `details` object (readField, storage, …) passed
by the source carries capabilities none of the verified claims exercise. -/
abbrev Modifier := SVal → MRes

/-- `Modifier<any> | Modifiers`: a single modifier applied uniformly, or
a map keyed by store field name / bare field name. -/
inductive Mods : Type where
  | all (m : Modifier)
  | perField (ms : List (String × Modifier))

/-- `delModifier` (source line 30). -/
def delModifier : Modifier := fun _ => .DELETE

structure ModifyAcc : Type where
  changedFields : StoreObject
  needToMerge : Bool
  allDeleted : Bool
  evts : List Evt

/-- `typeof fields === "function" ? fields : fields[storeFieldName] ||
fields[fieldName]` (source lines 292–294). -/
def resolveModifier (fields : Mods) (storeFieldName fieldName : String) :
    Option Modifier :=
  match fields with
  | .all m => some m
  | .perField ms =>
      match alookup ms storeFieldName with
      | some m => some m
      | none => alookup ms fieldName

/-- One iteration of the field loop of `modify` (source lines 288–320). -/
def modifyStep (g : CacheGroup) (dataId : String) (fields : Mods)
    (acc : ModifyAcc) (p : String × SVal) : ModifyAcc :=
  let storeFieldName := p.1
  let fieldName := fieldNameFromStoreName storeFieldName
  let fieldValue := p.2
  if fieldValue = .undef then acc
  else
    match resolveModifier fields storeFieldName fieldName with
    | none => { acc with allDeleted := false }
    | some m =>
        match m fieldValue with
        | .INVALIDATE =>
            { acc with evts := acc.evts ++ g.dirty dataId storeFieldName,
                       allDeleted := false }
        | r =>
            let newValue : SVal :=
              match r with
              | .DELETE => .undef
              | .value v => v
              | .INVALIDATE => .undef
            let acc' :=
              if newValue ≠ fieldValue then
                { acc with
                    changedFields := aset acc.changedFields storeFieldName newValue,
                    needToMerge := true }
              else acc
            if newValue ≠ .undef then { acc' with allDeleted := false } else acc'

/-- `EntityStore#modify` (source lines 259–339).  Looks up the
local-or-inherited record; runs every defined field through its modifier
(`INVALIDATE` dirties the field in place, `DELETE` clears it); if any
field changed the accumulated changes go through `merge`, and if every
field ended up undefined the entity is removed (Root: the key is deleted;
Layer: an explicit `undefined` shadow is stored) and `__exists` is
dirtied.  Returns whether any change occurred. -/
def EntityStore.modify (ctx : Ctx) (c : Chain) (dataId : String) (fields : Mods) :
    Chain × List Evt × Bool :=
  match EntityStore.lookup ctx c dataId with
  | none => (c, [], false)
  | some storeObject =>
      let g := Chain.group ctx c
      let acc := storeObject.foldl (modifyStep g dataId fields) ⟨[], false, true, []⟩
      if acc.needToMerge then
        let mr :=
          match EntityStore.merge ctx c (.inl dataId) (.inr acc.changedFields) with
          | .ok r => r
          | .error _ => (c, [])
        let c1 := mr.1
        if acc.allDeleted then
          let s := c1.headState
          let data' := if c1.isLayer then aset s.data dataId none
                       else aremove s.data dataId
          (c1.setHeadState { s with data := data' },
           acc.evts ++ mr.2 ++ g.dirty dataId "__exists", true)
        else (c1, acc.evts ++ mr.2, true)
      else (c, acc.evts, false)

/-- `EntityStore#delete` (source lines 347–363): with no field name,
delete the whole entity via the uniform `delModifier`; with a field name
(and optional serialized args forming the exact store field name), delete
only that field.  (The source reads the record's typename to compute the
store field name; our modelled `getStoreFieldName` does not consume it.) -/
def EntityStore.delete (ctx : Ctx) (c : Chain) (dataId : String)
    (fieldName : Option String) (args : Option String) : Chain × List Evt × Bool :=
  match EntityStore.lookup ctx c dataId with
  | none => (c, [], false)
  | some _storeObject =>
      let storeFieldName : Option String :=
        match fieldName, args with
        | some fn, some a => some (getStoreFieldName fn a)
        | fn, _ => fn
      EntityStore.modify ctx c dataId
        (match storeFieldName with
         | some sfn => .perField [(sfn, delModifier)]
         | none => .all delModifier)

theorem setHeadState_depth (c : Chain) (s : StoreState) :
    (c.setHeadState s).depth = c.depth := by
  cases c <;> simp [Chain.setHeadState, Chain.depth]

theorem merge_ok_depth (ctx : Ctx) :
    ∀ (c : Chain) (older newer : String ⊕ StoreObject) (c' : Chain) (ev : List Evt),
      EntityStore.merge ctx c older newer = .ok (c', ev) → c'.depth = c.depth := by
  intro c
  induction c with
  | root s =>
      intro older newer c' ev h
      simp only [EntityStore.merge] at h
      split at h
      · cases h; rfl
      · split at h
        · cases h
        · cases h; exact setHeadState_depth _ _
  | layer id st s parent ih =>
      intro older newer c' ev h
      cases st
      · simp only [EntityStore.merge] at h
        split at h
        · cases h; rfl
        · split at h
          · cases h
          · cases h; exact setHeadState_depth _ _
      · simp only [EntityStore.merge] at h
        cases hp : EntityStore.merge ctx parent older newer with
        | error e => rw [hp] at h; simp [Except.map] at h
        | ok r =>
            rw [hp] at h
            simp only [Except.map, Except.ok.injEq] at h
            obtain ⟨h1, _⟩ := Prod.mk.injEq .. ▸ h
            subst h1
            simp [Chain.depth, ih _ _ _ _ hp]

theorem modify_depth (ctx : Ctx) (c : Chain) (dataId : String) (fields : Mods) :
    (EntityStore.modify ctx c dataId fields).1.depth = c.depth := by
  simp only [EntityStore.modify]
  split
  · rfl
  · split
    · have hm : ∀ r, (match EntityStore.merge ctx c (.inl dataId)
          (.inr r) with
          | .ok r' => r'
          | .error _ => (c, [])).1.depth = c.depth := by
        intro r
        cases hq : EntityStore.merge ctx c (Sum.inl dataId) (Sum.inr r) with
        | ok v => simpa using merge_ok_depth ctx c _ _ v.1 v.2 (by rw [hq])
        | error e => simp
      split
      · simpa [setHeadState_depth] using hm _
      · simpa using hm _
    · rfl

theorem delete_depth (ctx : Ctx) (c : Chain) (dataId : String)
    (fieldName args : Option String) :
    (EntityStore.delete ctx c dataId fieldName args).1.depth = c.depth := by
  simp only [EntityStore.delete]
  split
  · rfl
  · exact modify_depth ctx c dataId _

/-- `EvictOptions` (`Cache.EvictOptions`): target id, optional field
name, optional (serialized) arguments. -/
structure EvictOptions : Type where
  id : Option String
  fieldName : Option String
  args : Option String

/-- The head store's `parent` pointer (the chain itself at the Root,
which never recurses on it). -/
def Chain.parentOrSelf : Chain → Chain
  | .root s => .root s
  | .layer _ _ _ p => p

/-- Replace the head store's parent pointer (no-op at the Root). -/
def Chain.withParent : Chain → Chain → Chain
  | .root s, _ => .root s
  | .layer lid st s _, p => .layer lid st s p

/-- `EntityStore#evict` (source lines 365–383): delete the target from
this store if its own data owns the id, recurse into the parent so the
eviction reaches the Root, and dirty the targeted field (or `__exists`)
whenever a field name was given or data was actually evicted. -/
def EntityStore.evict (ctx : Ctx) (c : Chain) (options : EvictOptions) :
    Chain × List Evt × Bool :=
  match options.id with
  | none => (c, [], false)
  | some dataId =>
      let d1 :=
        if amem c.headState.data dataId then
          EntityStore.delete ctx c dataId options.fieldName options.args
        else (c, [], false)
      let r2 :=
        if h : d1.1.isLayer then
          let pr := EntityStore.evict ctx d1.1.parentOrSelf options
          ((d1.1.withParent pr.1, pr.2.1), pr.2.2 || d1.2.2)
        else ((d1.1, []), d1.2.2)
      let ev3 :=
        if options.fieldName.isSome || r2.2 then
          (Chain.group ctx c).dirty dataId (options.fieldName.getD "__exists")
        else []
      (r2.1.1, d1.2.1 ++ r2.1.2 ++ ev3, r2.2)
termination_by c.depth
decreasing_by
  have hgen : ∀ x : Chain × List Evt × Bool,
      x = d1 → x.1.depth = c.depth := by
    intro x hx
    simp only [d1] at hx
    split at hx
    · subst hx; exact delete_depth ctx c dataId options.fieldName options.args
    · subst hx; rfl
  have hd : d1.1.depth = c.depth := hgen d1 rfl
  cases hp : d1.1 with
  | root s => rw [hp] at h; simp [Chain.isLayer] at h
  | layer lid st s parent =>
      simp only [Chain.parentOrSelf]
      rw [hp] at hd
      have hstep : parent.depth + 1 = c.depth := by rw [← hd]; rfl
      omega

/-! ## Retain / release, reference graph, garbage collection -/

/-- First-insertion-wins de-duplication (JS `Record` key semantics). -/
def dedupKeys (l : List String) : List String :=
  l.foldl (fun acc x => if x ∈ acc then acc else acc ++ [x]) []

/-- Adding a list of elements to an ECMAScript `Set` holding `a`:
existing elements keep their position, new ones are appended. -/
def unionKeys (a b : List String) : List String :=
  b.foldl (fun acc x => if x ∈ acc then acc else acc ++ [x]) a

/-- `EntityStore#retain` (source lines 438–440). -/
def EntityStore.retain (c : Chain) (rootId : String) : Chain × Nat :=
  let s := c.headState
  let n := ((alookup s.rootIds rootId).getD 0) + 1
  (c.setHeadState { s with rootIds := aset s.rootIds rootId n }, n)

/-- `EntityStore#release` (source lines 442–449). -/
def EntityStore.release (c : Chain) (rootId : String) : Chain × Nat :=
  let s := c.headState
  if ((alookup s.rootIds rootId).getD 0) > 0 then
    let count := ((alookup s.rootIds rootId).getD 0) - 1
    let rootIds' := if count = 0 then aremove s.rootIds rootId
                    else aset s.rootIds rootId count
    (c.setHeadState { s with rootIds := rootIds' }, count)
  else (c, 0)

/-- `EntityStore#getRootIdSet` (source lines 453–464): the union of every
store's retained ids down the chain, plus — at the Root — the well-known
singleton root ids, which are always considered GC roots regardless of
their retain counts. -/
def EntityStore.getRootIdSetAux (ctx : Ctx) : Chain → List String → List String
  | .root s, ids =>
      unionKeys (unionKeys ids (akeys s.rootIds))
        (akeys ctx.policies.rootTypenamesById)
  | .layer _ _ s parent, ids =>
      EntityStore.getRootIdSetAux ctx parent (unionKeys ids (akeys s.rootIds))

def EntityStore.getRootIdSet (ctx : Ctx) (c : Chain) : List String :=
  EntityStore.getRootIdSetAux ctx c []

mutual

def collectRefsV : SVal → List String
  | .ref _ i => [i]
  | .arr _ xs => collectRefsL xs
  | .obj _ fs => collectRefsF fs
  | .undef => []
  | .null => []
  | .scalar _ => []

def collectRefsL : List SVal → List String
  | [] => []
  | x :: xs => collectRefsV x ++ collectRefsL xs

def collectRefsF : List (String × SVal) → List String
  | [] => []
  | (_, v) :: fs => collectRefsV v ++ collectRefsF fs

end

/-- `EntityStore#findChildRefIds` (source lines 498–518) on one store:
return the memoized ref set if present, else walk the record's non-entity
substructure collecting `__ref` ids (References are collected, not
traversed) and memoize the result in `refs`. -/
def findChildRefIdsBase (s : StoreState) (dataId : String) : List String × StoreState :=
  match alookup s.refs dataId with
  | some r => (r, s)
  | none =>
      let found := dedupKeys
        (match alookup s.data dataId with
         | some (some so) => collectRefsF so
         | _ => [])
      (found, { s with refs := aset s.refs dataId found })

/-- `findChildRefIds` with the `Layer` override (source lines 798–804):
a Layer unions its parent's ref set with its own when its own data owns
the id. -/
def EntityStore.findChildRefIds : Chain → String → List String × Chain
  | .root s, dataId =>
      let r := findChildRefIdsBase s dataId
      (r.1, .root r.2)
  | .layer id st s parent, dataId =>
      let pr := EntityStore.findChildRefIds parent dataId
      if amem s.data dataId then
        let r := findChildRefIdsBase s dataId
        (unionKeys pr.1 r.1, .layer id st r.2 pr.2)
      else (pr.1, .layer id st s pr.2)

/-- The `ids.forEach` marking loop of `gc` (source lines 473–483) over an
ECMAScript `Set`: `queue` is the not-yet-visited suffix of the set,
`seen` its full contents; ids added during iteration are visited later
iff they were not already in the set.  Every visited id still in the
snapshot has its child refs added to the set and is removed from the
snapshot.  Returns the final snapshot, the final set, and the chain with
the ref memos populated. -/
def gcMark (c : Chain) (snap : List (String × Option StoreObject))
    (queue seen : List String) :
    List (String × Option StoreObject) × List String × Chain :=
  match queue with
  | [] => (snap, seen, c)
  | id :: rest =>
      if h : amem snap id then
        let r := EntityStore.findChildRefIds c id
        let newIds := r.1.filter (fun x => !seen.contains x)
        gcMark r.2 (aremove snap id) (rest ++ newIds) (seen ++ newIds)
      else gcMark c snap rest seen
termination_by (snap.length, queue.length)
decreasing_by
  · exact Prod.Lex.left _ _ (aremove_length_lt snap id h)
  · exact Prod.Lex.right _ (by simp)

/-- `EntityStore#gc` (source lines 470–491): compute the root id set,
mark reachability over a snapshot of `toObject()`, then delete every
unmarked id from the Root store (walking `parent` links to the Root
first).  Returns the removed ids, the resulting chain and the dirty
events of the deletions.  (The source guards the deletion loop with
`if (idsToRemove.length)`, which only skips an empty loop.) -/
def EntityStore.gc (ctx : Ctx) (c : Chain) : List String × Chain × List Evt :=
  let ids := EntityStore.getRootIdSet ctx c
  let snapshot := EntityStore.toObject c
  let m := gcMark c snapshot ids ids
  let idsToRemove := akeys m.1
  let c' := m.2.2
  let rd := idsToRemove.foldl
      (fun acc id =>
        let r := EntityStore.delete ctx acc.1 id none none
        (r.1, acc.2 ++ r.2.1))
      (Chain.root c'.rootState, ([] : List Evt))
  (idsToRemove, c'.setRootState rd.1.rootState, rd.2)

/-- `EntityStore#replace` (source lines 403–418): delete every locally
known id missing from the new data, merge in every new record, then
re-retain the `__META.extraRootIds`.  New data is modelled as the
id→record map together with the (possibly empty) `extraRootIds` list. -/
def EntityStore.replace (ctx : Ctx) (c : Chain)
    (newData : Option (List (String × StoreObject) × List String)) :
    Chain × List Evt :=
  let del := (akeys c.headState.data).foldl
      (fun acc id =>
        let keep := match newData with
                    | some nd => amem nd.1 id
                    | none => false
        if keep then acc
        else
          let r := EntityStore.delete ctx acc.1 id none none
          (r.1, acc.2 ++ r.2.1))
      (c, ([] : List Evt))
  match newData with
  | none => del
  | some nd =>
      let mrg := nd.1.foldl
          (fun acc p =>
            match EntityStore.merge ctx acc.1 (.inl p.1) (.inr p.2) with
            | .ok r => (r.1, acc.2 ++ r.2)
            | .error _ => acc)
          del
      let ret := nd.2.foldl (fun acc id => (EntityStore.retain acc id).1) mrg.1
      (ret, mrg.2)

/-- `EntityStore#clear` (source line 385). -/
def EntityStore.clear (ctx : Ctx) (c : Chain) : Chain × List Evt :=
  EntityStore.replace ctx c none

/-- `EntityStore.Root` construction (source lines 711–723): a fresh Root
store, optionally seeded through `replace`. -/
def Root.new (ctx : Ctx) (seed : Option (List (String × StoreObject) × List String)) :
    Chain :=
  match seed with
  | some sd => (EntityStore.replace ctx (Chain.root emptyState) (some sd)).1
  | none => Chain.root emptyState

/-! ## Well-formedness of chain states -/

/-- Every store's local data partition has duplicate-free keys (JS objects
cannot carry duplicate properties; every operation preserves this). -/
def DataNodup : Chain → Prop
  | .root s => (akeys s.data).Nodup
  | .layer _ _ s parent => (akeys s.data).Nodup ∧ DataNodup parent

instance DataNodup.dec : (c : Chain) → Decidable (DataNodup c)
  | .root s => inferInstanceAs (Decidable ((akeys s.data).Nodup))
  | .layer _ _ s parent =>
      letI := DataNodup.dec parent
      inferInstanceAs (Decidable (_ ∧ _))

/-- A Stump's own data only ever holds explicit `undefined` shadows: its
`merge` forwards to the Root, so the only write into a Stump's partition
is `modify`'s `this.data[dataId] = void 0`. -/
def StumpOk : Chain → Prop
  | .root _ => True
  | .layer _ isStump s parent =>
      (isStump = true → ∀ p ∈ s.data, p.2 = (none : Option StoreObject)) ∧ StumpOk parent

instance StumpOk.dec : (c : Chain) → Decidable (StumpOk c)
  | .root _ => inferInstanceAs (Decidable True)
  | .layer _ _ s parent =>
      letI := StumpOk.dec parent
      inferInstanceAs (Decidable (_ ∧ _))

/-- `dataId` has no stored record in any store of the chain, and is not a
well-known singleton root id with a truthy default typename (so `lookup`
finds nothing at all). -/
def danglingB (ctx : Ctx) : Chain → String → Bool
  | .root s, id =>
      (alookup s.data id).isNone &&
      (match alookup ctx.policies.rootTypenamesById id with
       | some t => t == ""
       | none => true)
  | .layer _ _ s parent, id => (alookup s.data id).isNone && danglingB ctx parent id

theorem alookup_eq_none_of_not_mem {α : Type} (l : List (String × α)) (k : String)
    (h : k ∉ akeys l) : alookup l k = none := by
  induction l with
  | nil => rfl
  | cons p rest ih =>
      obtain ⟨k₀, v₀⟩ := p
      simp only [akeys, List.map_cons, List.mem_cons, not_or] at h
      have hne : k₀ ≠ k := fun e => h.1 e.symm
      simp [alookup, hne, ih h.2]

theorem lookup_of_dangling (ctx : Ctx) :
    ∀ (c : Chain) (id : String), danglingB ctx c id = true →
      EntityStore.lookup ctx c id = none := by
  intro c
  induction c with
  | root s =>
      intro id h
      simp only [danglingB, Bool.and_eq_true, Option.isNone_iff_eq_none] at h
      obtain ⟨h1, h2⟩ := h
      cases ht : alookup ctx.policies.rootTypenamesById id with
      | some t =>
          rw [ht] at h2
          simp only [beq_iff_eq] at h2
          simp [EntityStore.lookup, h1, ht, h2]
      | none => simp [EntityStore.lookup, h1, ht]
  | layer lid st s parent ih =>
      intro id h
      simp only [danglingB, Bool.and_eq_true, Option.isNone_iff_eq_none] at h
      obtain ⟨h1, h2⟩ := h
      simp only [EntityStore.lookup, h1]
      exact ih id h2

/-! ## Claim theorems -/

/-- **C5.** For every dependency group with caching enabled:
`depend(id, storeFieldName)` registers the composite key for
`(id, storeFieldName)`; it additionally registers the bare-field-name key
whenever the store field name differs from its bare field name; the whole
read is also registered in the parent group when one exists (the parent's
registrations are a suffix of this group's); and `dirty(id,
storeFieldName)` invalidates exactly the one composite key — no bare-name
fan-out, no parent propagation. -/
theorem cacheGroup_depend_dirty (g : CacheGroup) (dataId storeFieldName : String)
    (hc : g.caching = true) :
    ((g.gid, makeDepKey dataId storeFieldName) ∈ g.depend dataId storeFieldName) ∧
    (fieldNameFromStoreName storeFieldName ≠ storeFieldName →
      (g.gid, makeDepKey dataId (fieldNameFromStoreName storeFieldName)) ∈
        g.depend dataId storeFieldName) ∧
    (∀ p, g.parent = some p →
      ∃ own, g.depend dataId storeFieldName = own ++ p.depend dataId storeFieldName) ∧
    (g.dirty dataId storeFieldName = [(g.gid, makeDepKey dataId storeFieldName)]) := by
  obtain ⟨gid, caching, parent⟩ := g
  simp only [CacheGroup.caching] at hc
  subst hc
  refine ⟨?_, ?_, ?_, ?_⟩
  · rw [CacheGroup.gid, CacheGroup.depend.eq_def]
    simp
  · intro hne
    rw [CacheGroup.gid, CacheGroup.depend.eq_def]
    simp [hne]
  · intro p hp
    simp only [CacheGroup.parent] at hp
    subst hp
    refine ⟨(gid, makeDepKey dataId storeFieldName) ::
      (if fieldNameFromStoreName storeFieldName ≠ storeFieldName then
        [(gid, makeDepKey dataId (fieldNameFromStoreName storeFieldName))]
      else []), ?_⟩
    rw [CacheGroup.depend.eq_def]
    simp
  · rw [CacheGroup.gid, CacheGroup.dirty.eq_def]
    simp

/-- Witness for C5: the Stump/Layer group (id 1, parent the Root group)
with an argument-carrying store field name. -/
theorem cacheGroup_depend_dirty_witness :
    (CacheGroup.mk 1 true (some (CacheGroup.mk 0 true none))).caching = true ∧
    ((1, makeDepKey "Item:1" "f(1)") ∈
      (CacheGroup.mk 1 true (some (CacheGroup.mk 0 true none))).depend "Item:1" "f(1)") ∧
    (fieldNameFromStoreName "f(1)" ≠ "f(1)") ∧
    ((1, makeDepKey "Item:1" (fieldNameFromStoreName "f(1)")) ∈
      (CacheGroup.mk 1 true (some (CacheGroup.mk 0 true none))).depend "Item:1" "f(1)") ∧
    ((CacheGroup.mk 1 true (some (CacheGroup.mk 0 true none))).dirty "Item:1" "f(1)" =
      [(1, makeDepKey "Item:1" "f(1)")]) := by
  have h := cacheGroup_depend_dirty
    (CacheGroup.mk 1 true (some (CacheGroup.mk 0 true none))) "Item:1" "f(1)" (by decide)
  refine ⟨by decide, h.1, by decide, h.2.1 (by decide), h.2.2.2⟩

/-- **C9.** For every call `merge(older, newer)` in which both arguments
are records (neither a string id), the operation fails immediately with
the invariant error "store.merge expects a string ID" — nothing is
coerced or stored. -/
theorem merge_both_records_errors (ctx : Ctx) :
    ∀ (c : Chain) (o n : StoreObject),
      EntityStore.merge ctx c (.inr o) (.inr n) =
        .error "store.merge expects a string ID" := by
  intro c
  induction c with
  | root s => intro o n; rfl
  | layer lid st s parent ih =>
      intro o n
      cases st
      · rfl
      · simp only [EntityStore.merge, ih, Except.map]

/-- **C10.** For every call `merge(older, newer)` in which `newer` is a
string id with no record anywhere in the chain (and not a known singleton
root), the operation returns without any effect: the chain — data
partitions, reference-graph caches, retained ids — is returned unchanged,
no dependency key is dirtied, and no error is raised, including when
`older` is a record rather than a string. -/
theorem merge_dangling_newer_noop (ctx : Ctx) :
    ∀ (c : Chain) (older : String ⊕ StoreObject) (nid : String),
      danglingB ctx c nid = true →
      EntityStore.merge ctx c older (.inl nid) = .ok (c, []) := by
  intro c
  induction c with
  | root s =>
      intro older nid h
      have hl := lookup_of_dangling ctx (.root s) nid h
      simp only [EntityStore.merge, hl]
  | layer lid st s parent ih =>
      intro older nid h
      cases st
      · have hl := lookup_of_dangling ctx (.layer lid false s parent) nid h
        simp only [EntityStore.merge, hl]
      · simp only [danglingB, Bool.and_eq_true] at h
        simp only [EntityStore.merge, ih older nid h.2, Except.map]

/-- Witness for C10: merging an unresolvable string id into a record on
an empty Root is a no-op. -/
theorem merge_dangling_newer_noop_witness :
    danglingB ⟨⟨[], fun _ _ => false⟩, true⟩ (Chain.root emptyState) "Y" = true ∧
    EntityStore.merge ⟨⟨[], fun _ _ => false⟩, true⟩ (Chain.root emptyState)
      (.inr [("a", .scalar "b")]) (.inl "Y") = .ok (Chain.root emptyState, []) :=
  ⟨by decide, merge_dangling_newer_noop ⟨⟨[], fun _ _ => false⟩, true⟩
    (Chain.root emptyState) (.inr [("a", .scalar "b")]) "Y" (by decide)⟩

/-! ### C8 — evict always dirties the target? -/

theorem resolve_all_del (a b : String) :
    resolveModifier (.all delModifier) a b = some delModifier := rfl

theorem resolve_per_del (sfn a b : String) :
    ∀ m, resolveModifier (.perField [(sfn, delModifier)]) a b = some m →
      m = delModifier := by
  intro m h
  simp only [resolveModifier, alookup] at h
  by_cases h1 : sfn = a
  · simp [h1] at h; exact h.symm
  · rw [if_neg h1] at h
    by_cases h2 : sfn = b
    · simp [h2] at h; exact h.symm
    · rw [if_neg h2] at h; cases h

/-- A field step whose (resolved) modifier can only be `delModifier`
never dirties anything: `delModifier` never returns `INVALIDATE`. -/
theorem modifyStep_evts_of_del (g : CacheGroup) (dataId : String) (fields : Mods)
    (acc : ModifyAcc) (p : String × SVal)
    (h : ∀ m, resolveModifier fields p.1 (fieldNameFromStoreName p.1) = some m →
      m = delModifier) :
    (modifyStep g dataId fields acc p).evts = acc.evts := by
  simp only [modifyStep]
  split
  · rfl
  · cases hr : resolveModifier fields p.1 (fieldNameFromStoreName p.1) with
    | none => rfl
    | some m =>
        rw [h m hr]
        simp only [delModifier]
        split <;> split <;> rfl

theorem modify_fold_evts (g : CacheGroup) (dataId : String) (fields : Mods)
    (hstep : ∀ acc p, (modifyStep g dataId fields acc p).evts = acc.evts) :
    ∀ (l : List (String × SVal)) (init : ModifyAcc),
      (l.foldl (modifyStep g dataId fields) init).evts = init.evts := by
  intro l
  induction l with
  | nil => intro init; rfl
  | cons p rest ih =>
      intro init
      rw [List.foldl_cons, ih, hstep]

/-- A `modify` whose per-field steps never dirty and that reports no
change emits no events at all (the `INVALIDATE` branch is the only event
source before the merge, and no merge happens). -/
theorem modify_false_no_events (ctx : Ctx) (c : Chain) (dataId : String) (fields : Mods)
    (hstep : ∀ acc p, (modifyStep (Chain.group ctx c) dataId fields acc p).evts = acc.evts)
    (hf : (EntityStore.modify ctx c dataId fields).2.2 = false) :
    (EntityStore.modify ctx c dataId fields).2.1 = [] := by
  cases hl : EntityStore.lookup ctx c dataId with
  | none => simp [EntityStore.modify, hl]
  | some so =>
      simp only [EntityStore.modify, hl] at hf ⊢
      by_cases hn : (so.foldl (modifyStep (Chain.group ctx c) dataId fields)
          (ModifyAcc.mk [] false true [])).needToMerge = true
      · rw [if_pos hn] at hf
        split at hf <;> simp at hf
      · rw [if_neg hn] at hf ⊢
        exact modify_fold_evts _ _ _ hstep _ _

/-- A `delete` that deleted nothing emits no events. -/
theorem delete_false_no_events (ctx : Ctx) (c : Chain) (dataId : String)
    (fieldName args : Option String)
    (hf : (EntityStore.delete ctx c dataId fieldName args).2.2 = false) :
    (EntityStore.delete ctx c dataId fieldName args).2.1 = [] := by
  cases hl : EntityStore.lookup ctx c dataId with
  | none => simp [EntityStore.delete, hl]
  | some so =>
      simp only [EntityStore.delete, hl] at hf ⊢
      apply modify_false_no_events ctx c dataId _ _ hf
      intro acc p
      split
      · next sfn _ =>
          exact modifyStep_evts_of_del _ _ _ _ _ (resolve_per_del sfn _ _)
      · exact modifyStep_evts_of_del _ _ _ _ _
          (fun m hm => by simpa [resolve_all_del] using hm.symm)

/-- An `evict` with no field name that evicted nothing emits no events. -/
theorem evict_false_no_events (ctx : Ctx) :
    ∀ (c : Chain) (options : EvictOptions),
      options.fieldName = none →
      (EntityStore.evict ctx c options).2.2 = false →
      (EntityStore.evict ctx c options).2.1 = [] := by
  intro c options
  induction c, options using EntityStore.evict.induct ctx with
  | case1 c options hid =>
      intro _ _
      rw [EntityStore.evict, hid]
  | case2 c options dataId hid d1 ih =>
      intro hfn hev
      obtain ⟨oid, ofn, oargs⟩ := options
      simp only at hid hfn
      subst hid
      subst hfn
      rw [EntityStore.evict] at hev ⊢
      simp only [Option.isSome_none, Bool.false_or, Option.getD_none, dite_eq_ite] at hev ⊢
      have hd1a : (if amem c.headState.data dataId = true then
            EntityStore.delete ctx c dataId none oargs
          else (c, [], false)).2.2 = false →
          (if amem c.headState.data dataId = true then
            EntityStore.delete ctx c dataId none oargs
          else (c, [], false)).2.1 = [] := by
        by_cases hm : amem c.headState.data dataId = true
        · rw [if_pos hm]; exact delete_false_no_events ctx c dataId none oargs
        · rw [if_neg hm]; intro _; rfl
      by_cases hil : (if amem c.headState.data dataId = true then
            EntityStore.delete ctx c dataId none oargs
          else (c, [], false)).1.isLayer = true
      · rw [if_pos hil] at hev ⊢
        simp only [Bool.or_eq_false_iff] at hev
        obtain ⟨hpr, hdd⟩ := hev
        have hihres : (EntityStore.evict ctx
            (if amem c.headState.data dataId = true then
              EntityStore.delete ctx c dataId none oargs
            else (c, [], false)).1.parentOrSelf
            ⟨some dataId, none, oargs⟩).2.1 = [] := ih hil rfl hpr
        simp [hpr, hdd, hd1a hdd, hihres]
      · rw [if_neg hil] at hev ⊢
        have hev' : (if amem c.headState.data dataId = true then
              EntityStore.delete ctx c dataId none oargs
            else (c, [], false)).2.2 = false := hev
        simp [hev', hd1a hev']

theorem group_dirty_eq (ctx : Ctx) (c : Chain) (hc : ctx.resultCaching = true)
    (a b : String) :
    (Chain.group ctx c).dirty a b = [((Chain.group ctx c).gid, makeDepKey a b)] := by
  cases c <;>
    simp [Chain.group, rootGroup, optimisticGroup, CacheGroup.dirty, CacheGroup.gid, hc]

/-- `evict` ends with `this.group.dirty` guarded by
`options.fieldName || evicted` (source lines 374–380). -/
theorem evict_events_structure (ctx : Ctx) (c : Chain) (options : EvictOptions)
    (dataId : String) (hid : options.id = some dataId) :
    ∃ pre1 pre2, (EntityStore.evict ctx c options).2.1 =
      pre1 ++ pre2 ++
        (if options.fieldName.isSome || (EntityStore.evict ctx c options).2.2 then
          (Chain.group ctx c).dirty dataId (options.fieldName.getD "__exists")
        else []) := by
  rw [EntityStore.evict, hid]
  exact ⟨_, _, rfl⟩

/-- **C8, counterexample.** `evict({id})` with no field name on an empty
Root deletes nothing and dirties nothing at all — in particular the
existence key of the id is not dirtied, contradicting the claim that the
target key is always dirtied even when nothing was stored. -/
theorem evict_always_dirties_counterexample :
    (EntityStore.evict ⟨⟨[], fun _ _ => false⟩, true⟩ (Chain.root emptyState)
      ⟨some "X", none, none⟩).2.1 = [] ∧
    ((0, makeDepKey "X" "__exists") ∉
      (EntityStore.evict ⟨⟨[], fun _ _ => false⟩, true⟩ (Chain.root emptyState)
        ⟨some "X", none, none⟩).2.1) := by
  have h : EntityStore.evict ⟨⟨[], fun _ _ => false⟩, true⟩ (Chain.root emptyState)
      ⟨some "X", none, none⟩ = (Chain.root emptyState, [], false) := by
    rw [EntityStore.evict]
    simp [amem, alookup, emptyState, Chain.headState, Chain.isLayer]
  rw [h]
  simp

/-- **C8 (amended).** For every `evict({id, fieldName?, args?})` with a
defined id, on a store whose group has caching enabled: when a field name
is given, its composite dependency key is dirtied in the invoking store's
group — even when nothing was stored at this layer for the id or field
and no data was deleted; when no field name is given, the existence key
is dirtied iff the eviction actually deleted data somewhere in the chain
(and if it deleted nothing, no key is dirtied at all). -/
theorem evict_dirty_amended (ctx : Ctx) (c : Chain) (options : EvictOptions)
    (hc : ctx.resultCaching = true) (dataId : String) (hid : options.id = some dataId) :
    (∀ f, options.fieldName = some f →
      ((Chain.group ctx c).gid, makeDepKey dataId f) ∈
        (EntityStore.evict ctx c options).2.1) ∧
    (options.fieldName = none →
      ((EntityStore.evict ctx c options).2.2 = true →
        ((Chain.group ctx c).gid, makeDepKey dataId "__exists") ∈
          (EntityStore.evict ctx c options).2.1) ∧
      ((EntityStore.evict ctx c options).2.2 = false →
        (EntityStore.evict ctx c options).2.1 = [])) := by
  obtain ⟨p1, p2, hstruct⟩ := evict_events_structure ctx c options dataId hid
  constructor
  · intro f hf
    rw [hstruct, hf]
    simp [group_dirty_eq ctx c hc]
  · intro hfn
    constructor
    · intro hev
      rw [hstruct, hfn, hev]
      simp [group_dirty_eq ctx c hc]
    · exact evict_false_no_events ctx c options hfn

/-- Witness for the amended C8: evicting a named field of an id that was
never stored, on an empty caching Root, still dirties that field's key in
the Root's group. -/
theorem evict_dirty_amended_witness :
    ((0 : Nat), makeDepKey "X" "f") ∈
      (EntityStore.evict ⟨⟨[], fun _ _ => false⟩, true⟩ (Chain.root emptyState)
        ⟨some "X", some "f", none⟩).2.1 :=
  (evict_dirty_amended ⟨⟨[], fun _ _ => false⟩, true⟩ (Chain.root emptyState)
      ⟨some "X", some "f", none⟩ rfl "X" rfl).1 "f" rfl

/-! ### C7 — modify and whole-entity removal -/

/-- Whether the `modify` field loop changes this field's value: the field
must be defined, a modifier must resolve, and its result (with `DELETE`
collapsed to `undefined`) must differ from the current value
(`INVALIDATE` never counts as a change). -/
def modFieldChanged (fields : Mods) (p : String × SVal) : Bool :=
  decide (p.2 ≠ SVal.undef) &&
  (match resolveModifier fields p.1 (fieldNameFromStoreName p.1) with
   | some m =>
       match m p.2 with
       | .INVALIDATE => false
       | .DELETE => true
       | .value v => decide (v ≠ p.2)
   | none => false)

/-- Whether the `modify` field loop leaves this field undefined: it was
already undefined (and is skipped), or its modifier returns `DELETE` or
the explicit `undefined` value. -/
def modMakesUndef (fields : Mods) (p : String × SVal) : Bool :=
  decide (p.2 = SVal.undef) ||
  (match resolveModifier fields p.1 (fieldNameFromStoreName p.1) with
   | some m =>
       match m p.2 with
       | .INVALIDATE => false
       | .DELETE => true
       | .value v => decide (v = SVal.undef)
   | none => false)

theorem modifyStep_needToMerge (g : CacheGroup) (dataId : String) (fields : Mods)
    (acc : ModifyAcc) (p : String × SVal) :
    (modifyStep g dataId fields acc p).needToMerge =
      (acc.needToMerge || modFieldChanged fields p) := by
  simp only [modifyStep, modFieldChanged]
  by_cases h0 : p.2 = SVal.undef
  · rw [if_pos h0]
    simp [h0]
  · rw [if_neg h0]
    cases hr : resolveModifier fields p.1 (fieldNameFromStoreName p.1) with
    | none => simp [h0]
    | some m =>
        cases hm : m p.2 with
        | INVALIDATE => simp [h0, hm]
        | DELETE =>
            have hne : SVal.undef ≠ p.2 := fun e => h0 e.symm
            simp [h0, hm, hne]
        | value v =>
            by_cases hv : v = p.2
            · simp [h0, hm, hv]
            · simp [h0, hm, hv]
              split <;> rfl

theorem modifyStep_allDeleted (g : CacheGroup) (dataId : String) (fields : Mods)
    (acc : ModifyAcc) (p : String × SVal) :
    (modifyStep g dataId fields acc p).allDeleted =
      (acc.allDeleted && modMakesUndef fields p) := by
  simp only [modifyStep, modMakesUndef]
  by_cases h0 : p.2 = SVal.undef
  · rw [if_pos h0]
    simp [h0]
  · rw [if_neg h0]
    cases hr : resolveModifier fields p.1 (fieldNameFromStoreName p.1) with
    | none => simp [h0]
    | some m =>
        cases hm : m p.2 with
        | INVALIDATE => simp [h0, hm]
        | DELETE =>
            simp [h0, hm]
            split <;> rfl
        | value v =>
            by_cases hv : v = SVal.undef
            · simp [h0, hm, hv]
              split <;> rfl
            · by_cases hv2 : v = p.2 <;> simp [h0, hm, hv, hv2]

theorem modify_fold_needToMerge (g : CacheGroup) (dataId : String) (fields : Mods) :
    ∀ (l : List (String × SVal)) (init : ModifyAcc),
      (l.foldl (modifyStep g dataId fields) init).needToMerge =
        (init.needToMerge || l.any (modFieldChanged fields)) := by
  intro l
  induction l with
  | nil => intro init; simp
  | cons p rest ih =>
      intro init
      rw [List.foldl_cons, ih, modifyStep_needToMerge]
      simp [Bool.or_assoc]

theorem modify_fold_allDeleted (g : CacheGroup) (dataId : String) (fields : Mods) :
    ∀ (l : List (String × SVal)) (init : ModifyAcc),
      (l.foldl (modifyStep g dataId fields) init).allDeleted =
        (init.allDeleted && l.all (modMakesUndef fields)) := by
  intro l
  induction l with
  | nil => intro init; simp
  | cons p rest ih =>
      intro init
      rw [List.foldl_cons, ih, modifyStep_allDeleted]
      simp [Bool.and_assoc]

theorem isLayer_eq_depth (c : Chain) : c.isLayer = decide (c.depth ≠ 0) := by
  cases c <;> simp [Chain.isLayer, Chain.depth]

theorem merge_ok_isLayer (ctx : Ctx) (c : Chain) (older newer : String ⊕ StoreObject)
    (c' : Chain) (ev : List Evt)
    (h : EntityStore.merge ctx c older newer = .ok (c', ev)) :
    c'.isLayer = c.isLayer := by
  rw [isLayer_eq_depth, isLayer_eq_depth, merge_ok_depth ctx c older newer c' ev h]

theorem headState_setHeadState (c : Chain) (s : StoreState) :
    (c.setHeadState s).headState = s := by
  cases c <;> rfl

/-- **C7 (amended).** For every `modify(id, fieldModifiers)` on a caching
store: when `id` resolves to no record, `modify` is a no-op returning
`false`; when it resolves to a record, `modify` returns `true` iff at
least one field's value changed, and — provided at least one field's
value changed and the modifiers left every field undefined — the entity
is removed entirely (at a Root the key is deleted from the local data, at
a Layer an explicit `undefined` shadow is stored) and the existence
dependency for `id` is dirtied in the invoking store's group. -/
theorem modify_amended (ctx : Ctx) (c : Chain) (dataId : String) (fields : Mods)
    (hc : ctx.resultCaching = true) :
    (EntityStore.lookup ctx c dataId = none →
      EntityStore.modify ctx c dataId fields = (c, [], false)) ∧
    (∀ so, EntityStore.lookup ctx c dataId = some so →
      ((EntityStore.modify ctx c dataId fields).2.2 =
        so.any (modFieldChanged fields)) ∧
      (so.all (modMakesUndef fields) = true →
       so.any (modFieldChanged fields) = true →
        (((Chain.group ctx c).gid, makeDepKey dataId "__exists") ∈
          (EntityStore.modify ctx c dataId fields).2.1) ∧
        (c.isLayer = false →
          alookup (EntityStore.modify ctx c dataId fields).1.headState.data dataId = none) ∧
        (c.isLayer = true →
          alookup (EntityStore.modify ctx c dataId fields).1.headState.data dataId =
            some none))) := by
  constructor
  · intro hl
    simp [EntityStore.modify, hl]
  · intro so hl
    have hnm : (so.foldl (modifyStep (Chain.group ctx c) dataId fields)
        (ModifyAcc.mk [] false true [])).needToMerge = so.any (modFieldChanged fields) := by
      rw [modify_fold_needToMerge]
      simp
    have had : (so.foldl (modifyStep (Chain.group ctx c) dataId fields)
        (ModifyAcc.mk [] false true [])).allDeleted = so.all (modMakesUndef fields) := by
      rw [modify_fold_allDeleted]
      simp
    constructor
    · simp only [EntityStore.modify, hl]
      by_cases hn : (so.foldl (modifyStep (Chain.group ctx c) dataId fields)
          (ModifyAcc.mk [] false true [])).needToMerge = true
      · rw [if_pos hn]
        rw [hn] at hnm
        split <;> simp [hnm.symm]
      · rw [if_neg hn]
        simp only [Bool.not_eq_true] at hn
        rw [hn] at hnm
        simp [hnm.symm]
    · intro hall hany
      simp only [EntityStore.modify, hl]
      rw [if_pos (by rw [hnm]; exact hany)]
      rw [if_pos (by rw [had]; exact hall)]
      refine ⟨?_, ?_, ?_⟩
      · simp [group_dirty_eq ctx c hc]
      · intro hroot
        cases hmr : EntityStore.merge ctx c (Sum.inl dataId)
            (Sum.inr ((so.foldl (modifyStep (Chain.group ctx c) dataId fields)
              (ModifyAcc.mk [] false true [])).changedFields)) with
        | ok r =>
            have hil : r.1.isLayer = c.isLayer := merge_ok_isLayer ctx c _ _ r.1 r.2 (by rw [hmr])
            simp [hil, hroot, headState_setHeadState, alookup_aremove_self]
        | error e =>
            simp [hroot, headState_setHeadState, alookup_aremove_self]
      · intro hlayer
        cases hmr : EntityStore.merge ctx c (Sum.inl dataId)
            (Sum.inr ((so.foldl (modifyStep (Chain.group ctx c) dataId fields)
              (ModifyAcc.mk [] false true [])).changedFields)) with
        | ok r =>
            have hil : r.1.isLayer = c.isLayer := merge_ok_isLayer ctx c _ _ r.1 r.2 (by rw [hmr])
            simp [hil, hlayer, headState_setHeadState, alookup_aset_self]
        | error e =>
            simp [hlayer, headState_setHeadState, alookup_aset_self]

/-- **C7, counterexample.** On a Root holding an *empty* record for
`"A"`, `modify("A", delModifier)` leaves every field of the entity
undefined (vacuously), yet the entity is not removed, nothing is dirtied
and `modify` returns `false` — contradicting the claim that such a call
removes the entity and returns `true`. -/
theorem modify_all_undefined_counterexample :
    EntityStore.modify ⟨⟨[], fun _ _ => false⟩, true⟩
        (Chain.root ⟨[("A", some [])], [], []⟩) "A" (.all delModifier) =
      (Chain.root ⟨[("A", some [])], [], []⟩, [], false) ∧
    alookup (EntityStore.modify ⟨⟨[], fun _ _ => false⟩, true⟩
        (Chain.root ⟨[("A", some [])], [], []⟩) "A" (.all delModifier)).1.headState.data
      "A" = some (some []) :=
  ⟨rfl, rfl⟩

/-- Witness for the amended C7: deleting the single defined field of
`"X"` on a caching Root dirties the existence key of `"X"` in the Root's
group. -/
theorem modify_amended_witness :
    ((0 : Nat), makeDepKey "X" "__exists") ∈
      (EntityStore.modify ⟨⟨[], fun _ _ => false⟩, true⟩
        (Chain.root ⟨[("X", some [("a", SVal.scalar "v")])], [], []⟩) "X"
        (.all delModifier)).2.1 :=
  (((modify_amended ⟨⟨[], fun _ _ => false⟩, true⟩
      (Chain.root ⟨[("X", some [("a", SVal.scalar "v")])], [], []⟩) "X"
      (.all delModifier) rfl).2 [("a", SVal.scalar "v")] rfl).2 (by decide) (by decide)).1

/-! ### C6 — singleton roots always resolve -/

/-- No store in the chain owns a data entry for `id` (not even an
`undefined` shadow). -/
def noEntryB : Chain → String → Bool
  | .root s, id => (alookup s.data id).isNone
  | .layer _ _ s parent, id => (alookup s.data id).isNone && noEntryB parent id

/-- **C6.** For every well-known singleton root id (present in the
policies' root-typename table with a truthy default typename) with no
stored record anywhere in the chain: `lookup(id)` returns an empty record
rather than absent, so `has(id)` returns `true`, and
`get(id, "__typename")` returns the id's default typename from the
external policy table. -/
theorem singleton_root_resolves (ctx : Ctx) :
    ∀ (c : Chain) (id t : String),
      alookup ctx.policies.rootTypenamesById id = some t → t ≠ "" →
      noEntryB c id = true →
      EntityStore.lookup ctx c id = some [] ∧
      EntityStore.has ctx c id = true ∧
      EntityStore.get ctx c id "__typename" = .scalar t := by
  intro c
  induction c with
  | root s =>
      intro id t ht htne hne
      simp only [noEntryB, Option.isNone_iff_eq_none] at hne
      refine ⟨?_, ?_, ?_⟩
      · simp [EntityStore.lookup, hne, ht, htne]
      · simp [EntityStore.has, EntityStore.lookup, hne, ht, htne]
      · simp [EntityStore.get, getLocal, hne, ht]
  | layer lid st s parent ih =>
      intro id t ht htne hne
      simp only [noEntryB, Bool.and_eq_true, Option.isNone_iff_eq_none] at hne
      obtain ⟨h1, h2⟩ := hne
      obtain ⟨ihl, _, _⟩ := ih id t ht htne h2
      refine ⟨?_, ?_, ?_⟩
      · simp [EntityStore.lookup, h1, ihl]
      · simp [EntityStore.has, EntityStore.lookup, h1, ihl]
      · simp [EntityStore.get, getLocal, h1, ht]

/-- Witness for C6: `ROOT_QUERY` on an empty Root with the standard
root-typename table. -/
theorem singleton_root_resolves_witness :
    alookup [("ROOT_QUERY", "Query")] "ROOT_QUERY" = some "Query" ∧
    ("Query" : String) ≠ "" ∧
    noEntryB (Chain.root emptyState) "ROOT_QUERY" = true ∧
    (EntityStore.lookup ⟨⟨[("ROOT_QUERY", "Query")], fun _ _ => false⟩, true⟩
        (Chain.root emptyState) "ROOT_QUERY" = some [] ∧
      EntityStore.has ⟨⟨[("ROOT_QUERY", "Query")], fun _ _ => false⟩, true⟩
        (Chain.root emptyState) "ROOT_QUERY" = true ∧
      EntityStore.get ⟨⟨[("ROOT_QUERY", "Query")], fun _ _ => false⟩, true⟩
        (Chain.root emptyState) "ROOT_QUERY" "__typename" = .scalar "Query") :=
  ⟨by decide, by decide, by decide,
    singleton_root_resolves ⟨⟨[("ROOT_QUERY", "Query")], fun _ _ => false⟩, true⟩
      (Chain.root emptyState) "ROOT_QUERY" "Query" (by decide) (by decide) (by decide)⟩

/-! ### C2 — merge idempotence -/

theorem alookup_mem {α : Type} :
    ∀ (l : List (String × α)) (k : String) (v : α),
      alookup l k = some v → (k, v) ∈ l := by
  intro l
  induction l with
  | nil => intro k v h; cases h
  | cons p rest ih =>
      intro k v h
      obtain ⟨k₀, v₀⟩ := p
      by_cases h0 : k₀ = k
      · subst h0
        have hv : v₀ = v := by simpa [alookup] using h
        subst hv
        simp
      · simp only [alookup, if_neg h0] at h
        simp [ih k v h]

theorem aset_of_none {α : Type} :
    ∀ (l : List (String × α)) (k : String) (v : α),
      alookup l k = none → aset l k v = l ++ [(k, v)] := by
  intro l
  induction l with
  | nil => intro k v _; rfl
  | cons p rest ih =>
      intro k v h
      obtain ⟨k₀, v₀⟩ := p
      by_cases h0 : k₀ = k
      · subst h0; simp [alookup] at h
      · simp only [alookup, if_neg h0] at h
        simp [aset, h0, ih k v h]

theorem spreadOver_cons (p : List (String × Option StoreObject))
    (e : String × Option StoreObject) (d : List (String × Option StoreObject)) :
    spreadOver p (e :: d) = spreadOver (aset p e.1 e.2) d := rfl

theorem spreadOver_append_single (p d : List (String × Option StoreObject))
    (k : String) (v : Option StoreObject) :
    spreadOver p (d ++ [(k, v)]) = aset (spreadOver p d) k v := by
  simp [spreadOver, List.foldl_append]

/-- Reading through a JS spread `{...p, ...d}`: a key of `d` wins
(assuming `d`'s keys are duplicate-free), otherwise `p` is consulted. -/
theorem alookup_spreadOver :
    ∀ (d : List (String × Option StoreObject))
      (p : List (String × Option StoreObject)) (k : String), (akeys d).Nodup →
      alookup (spreadOver p d) k =
        (match alookup d k with
         | some v => some v
         | none => alookup p k) := by
  intro d
  induction d with
  | nil => intro p k _; rfl
  | cons e d ih =>
      intro p k hnd
      obtain ⟨k₀, v₀⟩ := e
      simp only [akeys, List.map_cons, List.nodup_cons] at hnd
      obtain ⟨hk₀, hnd'⟩ := hnd
      rw [spreadOver_cons]
      rw [ih (aset p k₀ v₀) k hnd']
      by_cases h0 : k₀ = k
      · subst h0
        have hd : alookup d k₀ = none :=
          alookup_eq_none_of_not_mem d k₀ (by simpa [akeys] using hk₀)
        simp [hd, alookup, alookup_aset_self]
      · simp only [alookup, if_neg h0]
        cases hd : alookup d k with
        | some v => simp
        | none => simp [alookup_aset_ne p k₀ k v₀ h0]

/-- A record visible in `toObject()` is exactly what `lookup` finds. -/
theorem lookup_of_toObject (ctx : Ctx) :
    ∀ (c : Chain) (id : String) (v : Option StoreObject),
      DataNodup c →
      alookup (EntityStore.toObject c) id = some v →
      EntityStore.lookup ctx c id = v := by
  intro c
  induction c with
  | root s =>
      intro id v _ h
      simp only [EntityStore.toObject] at h
      simp [EntityStore.lookup, h]
  | layer lid st s parent ih =>
      intro id v hnd h
      obtain ⟨hnd1, hnd2⟩ := hnd
      simp only [EntityStore.toObject] at h
      rw [alookup_spreadOver s.data (EntityStore.toObject parent) id hnd1] at h
      cases hd : alookup s.data id with
      | some w =>
          rw [hd] at h
          simp only [Option.some.injEq] at h
          simp [EntityStore.lookup, hd, h]
      | none =>
          rw [hd] at h
          simp [EntityStore.lookup, hd, ih id v hnd2 h]

/-- `DeepMerger.merge(x, x)` takes the identity fast path on every key:
no copy is made and the record itself is returned. -/
theorem deepMerger_merge_self (rec : StoreObject) :
    DeepMerger.merge (some rec) rec = (rec, false) := by
  suffices h : ∀ l : List String, (∀ k ∈ l, amem rec k = true) →
      l.foldl (DeepMerger.step rec) (rec, false) = (rec, false) by
    exact h (akeys rec) (fun k hk => (mem_akeys_iff_amem rec k).1 hk)
  intro l
  induction l with
  | nil => intro _; rfl
  | cons k rest ih =>
      intro hmem
      rw [List.foldl_cons]
      have hk : amem rec k = true := hmem k (by simp)
      have hstep : DeepMerger.step rec (rec, false) k = (rec, false) := by
        simp only [DeepMerger.step]
        obtain ⟨tv, htv⟩ := Option.isSome_iff_exists.1 hk
        simp [htv]
      rw [hstep]
      exact ih (fun k' hk' => hmem k' (by simp [hk']))

/-- **C2.** Merge is idempotent: for every entity id with a current
stored record (visible in `toObject()`), on a well-formed chain,
`merge(id, currentRecord(id))` with that exact record dirties no
dependency key — indeed produces no events at all — and leaves
`toObject()` unchanged. -/
theorem merge_idempotent (ctx : Ctx) :
    ∀ (c : Chain) (id : String) (rec : StoreObject),
      DataNodup c → StumpOk c →
      alookup (EntityStore.toObject c) id = some (some rec) →
      ∃ c', EntityStore.merge ctx c (.inl id) (.inr rec) = .ok (c', []) ∧
        EntityStore.toObject c' = EntityStore.toObject c := by
  intro c
  induction c with
  | root s =>
      intro id rec hnd _ h
      have hl' : alookup s.data id = some (some rec) := h
      have hlk : EntityStore.lookup ctx (Chain.root s) id = some rec := by
        simp [EntityStore.lookup, hl']
      refine ⟨Chain.root { s with data := aset s.data id (some rec) }, ?_, ?_⟩
      · simp only [EntityStore.merge, hlk, deepMerger_merge_self]
        rfl
      · show aset s.data id (some rec) = s.data
        exact aset_self _ _ _ hl'
  | layer lid st s parent ih =>
      intro id rec hnd hst h
      obtain ⟨hnd1, hnd2⟩ := hnd
      obtain ⟨hst1, hst2⟩ := hst
      simp only [EntityStore.toObject] at h
      rw [alookup_spreadOver s.data (EntityStore.toObject parent) id hnd1] at h
      cases st
      · -- ordinary Layer: merge happens at the head
        have hlk : EntityStore.lookup ctx (Chain.layer lid false s parent) id = some rec := by
          cases hd : alookup s.data id with
          | some w =>
              rw [hd] at h
              simp only [Option.some.injEq] at h
              simp [EntityStore.lookup, hd, h]
          | none =>
              rw [hd] at h
              simp [EntityStore.lookup, hd, lookup_of_toObject ctx parent id _ hnd2 h]
        refine ⟨Chain.layer lid false { s with data := aset s.data id (some rec) } parent,
          ?_, ?_⟩
        · simp only [EntityStore.merge, hlk, deepMerger_merge_self]
          rfl
        · show spreadOver (EntityStore.toObject parent) (aset s.data id (some rec)) =
            spreadOver (EntityStore.toObject parent) s.data
          cases hd : alookup s.data id with
          | some w =>
              rw [hd] at h
              simp only [Option.some.injEq] at h
              subst h
              rw [aset_self _ _ _ hd]
          | none =>
              rw [hd] at h
              rw [aset_of_none _ _ _ hd, spreadOver_append_single,
                aset_self _ _ _ (by
                  rw [alookup_spreadOver s.data (EntityStore.toObject parent) id hnd1, hd]
                  exact h)]
      · -- Stump: the merge is forwarded to the parent
        have hd : alookup s.data id = none := by
          cases hd : alookup s.data id with
          | some w =>
              have hw : w = (none : Option StoreObject) :=
                hst1 rfl (id, w) (alookup_mem s.data id w hd)
              rw [hd, hw] at h
              simp at h
          | none => rfl
        rw [hd] at h
        obtain ⟨p', hp, htp⟩ := ih id rec hnd2 hst2 h
        refine ⟨Chain.layer lid true s p', ?_, ?_⟩
        · simp only [EntityStore.merge, hp, Except.map]
        · show spreadOver (EntityStore.toObject p') s.data =
            spreadOver (EntityStore.toObject parent) s.data
          rw [htp]

/-- Witness for C2: merging `Item:1`'s stored record into itself on a
one-entity Root produces no events and leaves `toObject()` untouched. -/
theorem merge_idempotent_witness :
    DataNodup (Chain.root ⟨[("Item:1", some [("name", SVal.scalar "a")])], [], []⟩) ∧
    StumpOk (Chain.root ⟨[("Item:1", some [("name", SVal.scalar "a")])], [], []⟩) ∧
    alookup (EntityStore.toObject
        (Chain.root ⟨[("Item:1", some [("name", SVal.scalar "a")])], [], []⟩)) "Item:1" =
      some (some [("name", SVal.scalar "a")]) ∧
    ∃ c', EntityStore.merge ⟨⟨[], fun _ _ => false⟩, true⟩
        (Chain.root ⟨[("Item:1", some [("name", SVal.scalar "a")])], [], []⟩)
        (.inl "Item:1") (.inr [("name", SVal.scalar "a")]) = .ok (c', []) ∧
      EntityStore.toObject c' = EntityStore.toObject
        (Chain.root ⟨[("Item:1", some [("name", SVal.scalar "a")])], [], []⟩) :=
  ⟨by decide, by decide, by decide,
    merge_idempotent ⟨⟨[], fun _ _ => false⟩, true⟩
      (Chain.root ⟨[("Item:1", some [("name", SVal.scalar "a")])], [], []⟩)
      "Item:1" [("name", SVal.scalar "a")] (by decide) (by decide) (by decide)⟩

theorem norm_eq_undef_iff (v : SVal) : SVal.norm v = SVal.undef ↔ v = SVal.undef := by
  cases v <;> simp [SVal.norm]

theorem equalV_undef_left (v : SVal) : equalV SVal.undef v = true ↔ v = SVal.undef := by
  simp only [equalV, SVal.norm, decide_eq_true_eq]
  constructor
  · intro h; exact (norm_eq_undef_iff v).1 h.symm
  · intro h; subst h; rfl

theorem ite_equalV_undef (src : SVal) :
    (if equalV SVal.undef src = true then SVal.undef else src) = src := by
  by_cases h : src = SVal.undef
  · subst h; simp
  · rw [if_neg (fun e => h ((equalV_undef_left src).1 e))]

theorem deepMerger_step_ne (inc t : StoreObject) (b : Bool) (k f : String)
    (h : k ≠ f) :
    alookup (DeepMerger.step inc (t, b) k).1 f = alookup t f := by
  simp only [DeepMerger.step]
  split
  · split
    · rfl
    · split
      · rfl
      · simpa using alookup_aset_ne t k f _ h
  · simpa using alookup_aset_ne t k f _ h

theorem deepMerger_step_at (inc t : StoreObject) (b : Bool) (k : String) :
    (alookup (DeepMerger.step inc (t, b) k).1 k).getD .undef =
      (if equalV ((alookup t k).getD .undef) ((alookup inc k).getD .undef) = true then
        (alookup t k).getD .undef
      else (alookup inc k).getD .undef) := by
  simp only [DeepMerger.step, storeObjectReconciler]
  cases ht : alookup t k with
  | none =>
      simp only [Option.getD_none]
      rw [alookup_aset_self]
      simp only [Option.getD_some]
      exact (ite_equalV_undef _).symm
  | some tv =>
      simp only [ht, Option.getD_some]
      by_cases hsrc : (alookup inc k).getD SVal.undef = tv
      · rw [if_pos hsrc]
        simp only [ht, Option.getD_some]
        rw [hsrc]
        split <;> rfl
      · rw [if_neg hsrc]
        by_cases heq : equalV tv ((alookup inc k).getD SVal.undef) = true
        · rw [if_pos heq, if_pos rfl]
          simp only [ht, Option.getD_some]
        · rw [if_neg heq, if_neg hsrc]
          rw [alookup_aset_self]
          simp only [Option.getD_some]

theorem deepMerger_foldl_ne (inc : StoreObject) :
    ∀ (l : List String) (acc : StoreObject × Bool) (f : String), f ∉ l →
      alookup ((l.foldl (DeepMerger.step inc) acc).1) f = alookup acc.1 f := by
  intro l
  induction l with
  | nil => intro acc f _; rfl
  | cons k rest ih =>
      intro acc f hf
      simp only [List.mem_cons, not_or] at hf
      obtain ⟨t, b⟩ := acc
      rw [List.foldl_cons, ih _ f hf.2]
      exact deepMerger_step_ne inc t b k f (fun e => hf.1 e.symm)

theorem deepMerger_foldl_at (inc : StoreObject) :
    ∀ (l : List String), l.Nodup → ∀ (acc : StoreObject × Bool) (f : String), f ∈ l →
      (alookup ((l.foldl (DeepMerger.step inc) acc).1) f).getD .undef =
        (if equalV ((alookup acc.1 f).getD .undef) ((alookup inc f).getD .undef) = true then
          (alookup acc.1 f).getD .undef
        else (alookup inc f).getD .undef) := by
  intro l
  induction l with
  | nil => intro _ acc f hf; cases hf
  | cons k rest ih =>
      intro hnd acc f hf
      obtain ⟨t, b⟩ := acc
      simp only [List.nodup_cons] at hnd
      rw [List.foldl_cons]
      by_cases hfk : f = k
      · subst hfk
        rw [deepMerger_foldl_ne inc rest _ f hnd.1]
        exact deepMerger_step_at inc t b f
      · have hfr : f ∈ rest := by
          rcases List.mem_cons.1 hf with h | h
          · exact absurd h hfk
          · exact h
        rw [ih hnd.2 _ f hfr,
          deepMerger_step_ne inc t b k f (fun e => hfk e.symm)]

theorem deepMerger_merge_at (ex inc : StoreObject) (hnd : (akeys inc).Nodup)
    (f : String) (hf : f ∈ akeys inc) :
    (alookup (DeepMerger.merge (some ex) inc).1 f).getD .undef =
      (if equalV ((alookup ex f).getD .undef) ((alookup inc f).getD .undef) = true then
        (alookup ex f).getD .undef
      else (alookup inc f).getD .undef) :=
  deepMerger_foldl_at inc (akeys inc) hnd (ex, false) f hf

theorem deepMerger_merge_ne (ex inc : StoreObject) (f : String) (hf : f ∉ akeys inc) :
    alookup (DeepMerger.merge (some ex) inc).1 f = alookup ex f :=
  deepMerger_foldl_ne inc (akeys inc) (ex, false) f hf

theorem amem_aset {α : Type} (l : List (String × α)) (k f : String) (v : α)
    (h : amem l f = true) : amem (aset l k v) f = true := by
  by_cases hk : k = f
  · subst hk
    simp [amem, alookup_aset_self]
  · rw [amem, alookup_aset_ne l k f v hk]
    exact h

theorem deepMerger_step_amem (inc : StoreObject) (acc : StoreObject × Bool)
    (k f : String) (h : amem acc.1 f = true) :
    amem (DeepMerger.step inc acc k).1 f = true := by
  obtain ⟨t, b⟩ := acc
  simp only [DeepMerger.step]
  split
  · split
    · exact h
    · split
      · exact h
      · simpa using amem_aset t k f _ h
  · simpa using amem_aset t k f _ h

theorem deepMerger_foldl_amem (inc : StoreObject) :
    ∀ (l : List String) (acc : StoreObject × Bool) (f : String),
      amem acc.1 f = true →
      amem ((l.foldl (DeepMerger.step inc) acc).1) f = true := by
  intro l
  induction l with
  | nil => intro acc f h; exact h
  | cons k rest ih =>
      intro acc f h
      rw [List.foldl_cons]
      exact ih _ f (deepMerger_step_amem inc acc k f h)

theorem deepMerger_merge_amem (ex inc : StoreObject) (f : String)
    (h : amem ex f = true) :
    amem (DeepMerger.merge (some ex) inc).1 f = true :=
  deepMerger_foldl_amem inc (akeys inc) (ex, false) f h

theorem dropUndef_getD (inc : StoreObject) :
    ∀ (l : List String) (m : StoreObject) (f : String),
      (alookup (l.foldl (fun m sfn =>
        if (alookup inc sfn).getD .undef = .undef &&
           (match alookup m sfn with | some .undef => true | _ => false) then
          aremove m sfn
        else m) m) f).getD .undef = (alookup m f).getD .undef := by
  intro l
  induction l with
  | nil => intro m f; rfl
  | cons k rest ih =>
      intro m f
      rw [List.foldl_cons, ih]
      split
      · next hcond =>
          by_cases hfk : k = f
          · subst hfk
            simp only [Bool.and_eq_true] at hcond
            rw [alookup_aremove_self]
            split at hcond
            · next hmk =>
                rw [hmk]
                rfl
            · simp at hcond
          · rw [alookup_aremove_ne m k f hfk]
      · rfl

theorem dropUndefinedKeysAtRoot_getD (inc merged : StoreObject) (f : String) :
    (alookup (dropUndefinedKeysAtRoot inc merged) f).getD .undef =
      (alookup merged f).getD .undef :=
  dropUndef_getD inc (akeys inc) merged f

theorem mid_none (ctx : Ctx) (id f : String)
    (hts : ¬(f = "__typename" ∧ (alookup ctx.policies.rootTypenamesById id).isSome = true)) :
    (if f = "__typename" then alookup ctx.policies.rootTypenamesById id else none) =
      none := by
  by_cases hf : f = "__typename"
  · rw [if_pos hf]
    cases htb : alookup ctx.policies.rootTypenamesById id with
    | none => rfl
    | some t => exact absurd ⟨hf, by rw [htb]; rfl⟩ hts
  · rw [if_neg hf]

theorem get_root (ctx : Ctx) (s : StoreState) (id f : String) (rec : StoreObject)
    (h : alookup s.data id = some (some rec))
    (hts : ¬(f = "__typename" ∧ (alookup ctx.policies.rootTypenamesById id).isSome = true)) :
    EntityStore.get ctx (Chain.root s) id f = (alookup rec f).getD .undef := by
  cases hv : alookup rec f with
  | some v => simp [EntityStore.get, getLocal, h, hv]
  | none => simp [EntityStore.get, getLocal, h, hv, mid_none ctx id f hts]

theorem get_layer_hit (ctx : Ctx) (lid : String) (st : Bool) (s : StoreState)
    (parent : Chain) (id f : String) (rec : StoreObject) (v : SVal)
    (h : alookup s.data id = some (some rec)) (hv : alookup rec f = some v) :
    EntityStore.get ctx (Chain.layer lid st s parent) id f = v := by
  simp [EntityStore.get, getLocal, h, hv]

theorem get_of_lookup (ctx : Ctx) :
    ∀ (c : Chain) (id : String) (ex : StoreObject) (f : String),
      EntityStore.lookup ctx c id = some ex → f ∈ akeys ex →
      ¬(f = "__typename" ∧ (alookup ctx.policies.rootTypenamesById id).isSome = true) →
      EntityStore.get ctx c id f = (alookup ex f).getD .undef := by
  intro c
  induction c with
  | root s =>
      intro id ex f hl hf hts
      cases hd : alookup s.data id with
      | some v =>
          have hv : v = some ex := by simpa [EntityStore.lookup, hd] using hl
          subst hv
          exact get_root ctx s id f ex hd hts
      | none =>
          simp only [EntityStore.lookup, hd] at hl
          split at hl
          · next t ht =>
              split at hl
              · simp only [Option.some.injEq] at hl
                rw [← hl] at hf
                cases hf
              · cases hl
          · cases hl
  | layer lid st s parent ih =>
      intro id ex f hl hf hts
      cases hd : alookup s.data id with
      | some v =>
          have hv : v = some ex := by simpa [EntityStore.lookup, hd] using hl
          subst hv
          obtain ⟨val, hval⟩ :=
            Option.isSome_iff_exists.1 ((mem_akeys_iff_amem ex f).1 hf)
          rw [get_layer_hit ctx lid st s parent id f ex val hd hval, hval]
          rfl
      | none =>
          simp only [EntityStore.lookup, hd] at hl
          simp [EntityStore.get, getLocal, hd, mid_none ctx id f hts,
            ih id ex f hl hf hts]

theorem merge_inl_inr_ok (ctx : Ctx) :
    ∀ (c : Chain) (id : String) (inc : StoreObject),
      ∃ r, EntityStore.merge ctx c (.inl id) (.inr inc) = .ok r := by
  intro c
  induction c with
  | root s => intro id inc; exact ⟨_, rfl⟩
  | layer lid st s parent ih =>
      intro id inc
      cases st
      · exact ⟨_, rfl⟩
      · obtain ⟨r, hr⟩ := ih id inc
        exact ⟨(Chain.layer lid true s r.1, r.2), by
          simp only [EntityStore.merge, hr, Except.map]⟩

/-- **C1 (amended).** On a store-field-name collision the reconciled record
keeps the existing field value itself when the incoming value is deeply
equal to it, and otherwise takes the incoming value (part one, stated with
Lean equality of identity-tagged values modelling `===`); and after such a
merge of a deeply-equal colliding field, `get(id, field)` returns the same
value as before the merge — provided the field is not the `__typename` of a
well-known singleton root id, where the policy-table default can mask the
stored value (part two). -/
theorem merge_referential_stability (ctx : Ctx) :
    (∀ (ex inc : StoreObject) (f : String), (akeys inc).Nodup →
      f ∈ akeys ex → f ∈ akeys inc →
      ((equalV ((alookup ex f).getD .undef) ((alookup inc f).getD .undef) = true →
        (alookup (DeepMerger.merge (some ex) inc).1 f).getD .undef =
          (alookup ex f).getD .undef) ∧
       (equalV ((alookup ex f).getD .undef) ((alookup inc f).getD .undef) = false →
        (alookup (DeepMerger.merge (some ex) inc).1 f).getD .undef =
          (alookup inc f).getD .undef))) ∧
    (∀ (c : Chain) (id : String) (ex inc : StoreObject) (f : String),
      EntityStore.lookup ctx c id = some ex → (akeys inc).Nodup →
      f ∈ akeys ex → f ∈ akeys inc →
      equalV ((alookup ex f).getD .undef) ((alookup inc f).getD .undef) = true →
      ¬(f = "__typename" ∧ (alookup ctx.policies.rootTypenamesById id).isSome = true) →
      ∃ c' ev, EntityStore.merge ctx c (.inl id) (.inr inc) = .ok (c', ev) ∧
        EntityStore.get ctx c' id f = EntityStore.get ctx c id f) := by
  constructor
  · intro ex inc f hnd _ hfi
    constructor
    · intro he
      rw [deepMerger_merge_at ex inc hnd f hfi, if_pos he]
    · intro he
      rw [deepMerger_merge_at ex inc hnd f hfi, if_neg (by rw [he]; simp)]
  · intro c
    induction c with
    | root s =>
        intro id ex inc f hl hnd hfe hfi heq hts
        have hbefore := get_of_lookup ctx (Chain.root s) id ex f hl hfe hts
        cases hd : alookup s.data id with
        | none =>
            simp only [EntityStore.lookup, hd] at hl
            split at hl
            · next t ht =>
                split at hl
                · simp only [Option.some.injEq] at hl
                  rw [← hl] at hfe
                  cases hfe
                · cases hl
            · cases hl
        | some v =>
            have hv : v = some ex := by simpa [EntityStore.lookup, hd] using hl
            subst hv
            have hmergedf : (alookup (DeepMerger.merge (some ex) inc).1 f).getD .undef =
                (alookup ex f).getD .undef := by
              rw [deepMerger_merge_at ex inc hnd f hfi, if_pos heq]
            cases hch : (DeepMerger.merge (some ex) inc).2 with
            | true =>
                have hm : ∃ ev, EntityStore.merge ctx (Chain.root s)
                    (Sum.inl id) (Sum.inr inc) =
                    .ok (Chain.root { s with
                      data := aset s.data id (some (dropUndefinedKeysAtRoot inc
                        (DeepMerger.merge (some ex) inc).1)),
                      refs := aremove s.refs id }, ev) := by
                  simp only [EntityStore.merge, hl, hch]
                  exact ⟨_, rfl⟩
                obtain ⟨ev, hm⟩ := hm
                refine ⟨_, ev, hm, ?_⟩
                rw [get_root ctx _ id f _ (alookup_aset_self s.data id _) hts,
                  dropUndefinedKeysAtRoot_getD, hmergedf, hbefore]
            | false =>
                have hm : ∃ ev, EntityStore.merge ctx (Chain.root s)
                    (Sum.inl id) (Sum.inr inc) =
                    .ok (Chain.root { s with
                      data := aset s.data id
                        (some (DeepMerger.merge (some ex) inc).1) }, ev) := by
                  simp only [EntityStore.merge, hl, hch]
                  exact ⟨_, rfl⟩
                obtain ⟨ev, hm⟩ := hm
                refine ⟨_, ev, hm, ?_⟩
                rw [get_root ctx _ id f _ (alookup_aset_self s.data id _) hts,
                  hmergedf, hbefore]
    | layer lid st s parent ih =>
        intro id ex inc f hl hnd hfe hfi heq hts
        have hbefore := get_of_lookup ctx (Chain.layer lid st s parent) id ex f hl hfe hts
        have hmergedf : (alookup (DeepMerger.merge (some ex) inc).1 f).getD .undef =
            (alookup ex f).getD .undef := by
          rw [deepMerger_merge_at ex inc hnd f hfi, if_pos heq]
        obtain ⟨w, hw⟩ := Option.isSome_iff_exists.1
          (deepMerger_merge_amem ex inc f ((mem_akeys_iff_amem ex f).1 hfe))
        have hwval : w = (alookup ex f).getD .undef := by
          rw [← hmergedf, hw]; rfl
        cases st
        · -- ordinary Layer
          cases hch : (DeepMerger.merge (some ex) inc).2 with
          | true =>
              have hm : ∃ ev, EntityStore.merge ctx (Chain.layer lid false s parent)
                  (Sum.inl id) (Sum.inr inc) =
                  .ok (Chain.layer lid false { s with
                    data := aset s.data id (some (DeepMerger.merge (some ex) inc).1),
                    refs := aremove s.refs id } parent, ev) := by
                simp only [EntityStore.merge, hl, hch]
                exact ⟨_, rfl⟩
              obtain ⟨ev, hm⟩ := hm
              refine ⟨_, ev, hm, ?_⟩
              rw [get_layer_hit ctx lid false _ parent id f _ w
                (alookup_aset_self s.data id _) hw, hwval, hbefore]
          | false =>
              have hm : ∃ ev, EntityStore.merge ctx (Chain.layer lid false s parent)
                  (Sum.inl id) (Sum.inr inc) =
                  .ok (Chain.layer lid false { s with
                    data := aset s.data id
                      (some (DeepMerger.merge (some ex) inc).1) } parent, ev) := by
                simp only [EntityStore.merge, hl, hch]
                exact ⟨_, rfl⟩
              obtain ⟨ev, hm⟩ := hm
              refine ⟨_, ev, hm, ?_⟩
              rw [get_layer_hit ctx lid false _ parent id f _ w
                (alookup_aset_self s.data id _) hw, hwval, hbefore]
        · -- Stump: merge forwarded to the parent
          cases hd : alookup s.data id with
          | some v =>
              have hv : v = some ex := by simpa [EntityStore.lookup, hd] using hl
              subst hv
              obtain ⟨val, hval⟩ :=
                Option.isSome_iff_exists.1 ((mem_akeys_iff_amem ex f).1 hfe)
              obtain ⟨r, hr⟩ := merge_inl_inr_ok ctx parent id inc
              refine ⟨Chain.layer lid true s r.1, r.2, ?_, ?_⟩
              · simp only [EntityStore.merge, hr, Except.map]
              · rw [get_layer_hit ctx lid true s r.1 id f ex val hd hval,
                  get_layer_hit ctx lid true s parent id f ex val hd hval]
          | none =>
              have hlp : EntityStore.lookup ctx parent id = some ex := by
                simpa [EntityStore.lookup, hd] using hl
              obtain ⟨p', ev, hp, hg⟩ := ih id ex inc f hlp hnd hfe hfi heq hts
              refine ⟨Chain.layer lid true s p', ev, ?_, ?_⟩
              · simp only [EntityStore.merge, hp, Except.map]
              · simp [EntityStore.get, getLocal, hd, mid_none ctx id f hts, hg]

def c1ctx : Ctx := ⟨⟨[("ROOT_QUERY", "Query")], fun _ _ => false⟩, true⟩

def c1ex : StoreObject := [("__typename", SVal.scalar "NotQuery")]

def c1chain : Chain :=
  Chain.layer "L2" false emptyState
    (Chain.layer "L1" false ⟨[("ROOT_QUERY", some c1ex)], [], []⟩ (Chain.root emptyState))

/-- **C1 (counterexample to the frozen claim).** A two-layer chain whose
lower layer stores `ROOT_QUERY = { __typename: "NotQuery" }` while the
policy table maps `ROOT_QUERY` to `"Query"`: before the merge
`get(ROOT_QUERY, __typename)` returns the table default `"Query"` (the
head layer misses locally and consults the table before its parent), but
merging the deeply-equal incoming record stores it at the head layer, after
which `get` returns `"NotQuery"` — so the claim's unconditional
`get`-stability fails even though every collision kept the existing value. -/
theorem merge_referential_stability_counterexample :
    EntityStore.lookup c1ctx c1chain "ROOT_QUERY" = some c1ex ∧
    equalV ((alookup c1ex "__typename").getD .undef)
      ((alookup c1ex "__typename").getD .undef) = true ∧
    EntityStore.get c1ctx c1chain "ROOT_QUERY" "__typename" = SVal.scalar "Query" ∧
    ∃ c' ev,
      EntityStore.merge c1ctx c1chain (.inl "ROOT_QUERY") (.inr c1ex) = .ok (c', ev) ∧
      EntityStore.get c1ctx c' "ROOT_QUERY" "__typename" ≠
        EntityStore.get c1ctx c1chain "ROOT_QUERY" "__typename" := by
  refine ⟨rfl, by decide, rfl, ?_⟩
  refine ⟨_, _, rfl, ?_⟩
  decide

def w1ctx : Ctx := ⟨⟨[], fun _ _ => false⟩, true⟩

def w1ex : StoreObject := [("f", SVal.scalar "x")]

def w1chain : Chain := Chain.root ⟨[("A", some w1ex)], [], []⟩

/-- Witness for the amended C1 theorem at a concrete root store. -/
theorem merge_referential_stability_witness :
    ((alookup (DeepMerger.merge (some w1ex) w1ex).1 "f").getD .undef =
      (alookup w1ex "f").getD .undef) ∧
    (∃ c' ev,
      EntityStore.merge w1ctx w1chain (.inl "A") (.inr w1ex) = .ok (c', ev) ∧
      EntityStore.get w1ctx c' "A" "f" = EntityStore.get w1ctx w1chain "A" "f") :=
  ⟨((merge_referential_stability w1ctx).1 w1ex w1ex "f"
      (by decide) (by decide) (by decide)).1 (by decide),
   (merge_referential_stability w1ctx).2 w1chain "A" w1ex w1ex "f"
      (by decide) (by decide) (by decide) (by decide) (by decide) (by decide)⟩

def c3ctx : Ctx := ⟨⟨[("ROOT_QUERY", "Query")], fun _ _ => false⟩, true⟩

def c3root : Chain := Chain.root
  ⟨[("ROOT_QUERY", some [("__typename", SVal.scalar "Query"),
                         ("field", SVal.ref 0 "Item:1")]),
    ("Item:1", some [("__typename", SVal.scalar "Item"),
                     ("name", SVal.scalar "a")])], [], []⟩

/-- **C3 (counterexample to the frozen claim).** In the seeded Root,
`release("ROOT_QUERY")` after `retain("ROOT_QUERY")` drops the retain
count back to zero, but the next `gc()` still returns an EMPTY removal
list — not `["ROOT_QUERY", "Item:1"]` — because `getRootIdSet` always
adds the well-known singleton root ids (the keys of
`rootTypenamesById`, source lines 458–461) to the root id set, so
`ROOT_QUERY` and everything reachable from it is never collected. -/
theorem gc_after_release_counterexample :
    (EntityStore.gc c3ctx
        (EntityStore.release (EntityStore.retain c3root "ROOT_QUERY").1
          "ROOT_QUERY").1).1 = [] ∧
    "ROOT_QUERY" ∉ (EntityStore.gc c3ctx
        (EntityStore.release (EntityStore.retain c3root "ROOT_QUERY").1
          "ROOT_QUERY").1).1 := by
  constructor
  · simp +decide [EntityStore.gc, gcMark, EntityStore.retain, EntityStore.release,
      EntityStore.getRootIdSet, EntityStore.getRootIdSetAux, unionKeys, dedupKeys,
      EntityStore.toObject, EntityStore.findChildRefIds, findChildRefIdsBase,
      collectRefsF, collectRefsV, collectRefsL, spreadOver, Chain.headState,
      Chain.setHeadState, c3ctx, c3root, alookup, aset, aremove, amem, akeys,
      Chain.layersData, Chain.rootState]
  · simp +decide [EntityStore.gc, gcMark, EntityStore.retain, EntityStore.release,
      EntityStore.getRootIdSet, EntityStore.getRootIdSetAux, unionKeys, dedupKeys,
      EntityStore.toObject, EntityStore.findChildRefIds, findChildRefIdsBase,
      collectRefsF, collectRefsV, collectRefsL, spreadOver, Chain.headState,
      Chain.setHeadState, c3ctx, c3root, alookup, aset, aremove, amem, akeys,
      Chain.layersData, Chain.rootState]

/-- **C3 (amended).** In the Root seeded with the claim's two records,
with `ROOT_QUERY` a well-known singleton root id: `gc()` after
`retain("ROOT_QUERY")` returns an empty removal list, and
`release("ROOT_QUERY")` followed by `gc()` ALSO returns an empty removal
list, because singleton root ids are unconditionally part of the root id
set and both records stay reachable. -/
theorem gc_singleton_roots_amended :
    (EntityStore.gc c3ctx (EntityStore.retain c3root "ROOT_QUERY").1).1 = [] ∧
    (EntityStore.gc c3ctx
        (EntityStore.release (EntityStore.retain c3root "ROOT_QUERY").1
          "ROOT_QUERY").1).1 = [] := by
  constructor
  · simp +decide [EntityStore.gc, gcMark, EntityStore.retain,
      EntityStore.getRootIdSet, EntityStore.getRootIdSetAux, unionKeys, dedupKeys,
      EntityStore.toObject, EntityStore.findChildRefIds, findChildRefIdsBase,
      collectRefsF, collectRefsV, collectRefsL, spreadOver, Chain.headState,
      Chain.setHeadState, c3ctx, c3root, alookup, aset, aremove, amem, akeys,
      Chain.layersData, Chain.rootState]
  · simp +decide [EntityStore.gc, gcMark, EntityStore.retain, EntityStore.release,
      EntityStore.getRootIdSet, EntityStore.getRootIdSetAux, unionKeys, dedupKeys,
      EntityStore.toObject, EntityStore.findChildRefIds, findChildRefIdsBase,
      collectRefsF, collectRefsV, collectRefsL, spreadOver, Chain.headState,
      Chain.setHeadState, c3ctx, c3root, alookup, aset, aremove, amem, akeys,
      Chain.layersData, Chain.rootState]

theorem amem_aremove {α : Type} (l : List (String × α)) (k i : String) :
    amem (aremove l k) i = if i = k then false else amem l i := by
  by_cases h : i = k
  · subst h; simp [amem, alookup_aremove_self]
  · simp [amem, alookup_aremove_ne l k i (fun e => h e.symm), h]

theorem contains_iff_mem (l : List String) (x : String) :
    l.contains x = true ↔ x ∈ l := by
  induction l with
  | nil => simp
  | cons a as ih =>
      simp [List.contains_cons, ih, beq_iff_eq]

/-- The value `findChildRefIds` computes, as a pure function of the chain
(the memo in `refs` is returned when present, so this is exactly the
`.1` component of `EntityStore.findChildRefIds`). -/
def childOf : Chain → String → List String
  | .root s, id => (findChildRefIdsBase s id).1
  | .layer _ _ s parent, id =>
      if amem s.data id then
        unionKeys (childOf parent id) (findChildRefIdsBase s id).1
      else childOf parent id

theorem findChildRefIds_fst (c : Chain) (id : String) :
    (EntityStore.findChildRefIds c id).1 = childOf c id := by
  induction c with
  | root s => rfl
  | layer lid st s parent ih =>
      by_cases h : amem s.data id <;>
        simp [EntityStore.findChildRefIds, childOf, h, ih]

theorem base_data (s : StoreState) (id : String) :
    (findChildRefIdsBase s id).2.data = s.data := by
  simp only [findChildRefIdsBase]
  split <;> rfl

theorem base_fst_stable (s : StoreState) (id j : String) :
    (findChildRefIdsBase (findChildRefIdsBase s id).2 j).1 =
      (findChildRefIdsBase s j).1 := by
  cases h : alookup s.refs id with
  | some r => simp [findChildRefIdsBase, h]
  | none =>
      by_cases hj : j = id
      · subst hj
        simp [findChildRefIdsBase, h, alookup_aset_self]
      · simp only [findChildRefIdsBase, h]
        rw [alookup_aset_ne s.refs id j _ (fun e => hj e.symm)]
        cases alookup s.refs j <;> rfl

theorem childOf_findChild (c : Chain) (id : String) :
    ∀ j, childOf (EntityStore.findChildRefIds c id).2 j = childOf c j := by
  induction c with
  | root s => intro j; exact base_fst_stable s id j
  | layer lid st s parent ih =>
      intro j
      by_cases h : amem s.data id
      · simp only [EntityStore.findChildRefIds, if_pos h, childOf, base_data,
          base_fst_stable, ih]
      · simp only [EntityStore.findChildRefIds, if_neg h, childOf, ih]

theorem findChildRefIds_layersData (c : Chain) (id : String) :
    ((EntityStore.findChildRefIds c id).2).layersData = c.layersData := by
  induction c with
  | root s => rfl
  | layer lid st s parent ih =>
      by_cases h : amem s.data id <;>
        simp [EntityStore.findChildRefIds, Chain.layersData, h, ih, base_data]

theorem findChildRefIds_rootData (c : Chain) (id : String) :
    ((EntityStore.findChildRefIds c id).2).rootState.data = c.rootState.data := by
  induction c with
  | root s => exact base_data s id
  | layer lid st s parent ih =>
      by_cases h : amem s.data id <;>
        simp [EntityStore.findChildRefIds, Chain.rootState, h, ih]

/-- Whether a record has at least one field whose value is defined. -/
def hasDefinedField (rec : StoreObject) : Bool :=
  rec.any fun p => decide (p.2 ≠ SVal.undef)

/-- Whether `delete(id)` invoked at the Root actually removes the `data`
key: the Root partition must own a record for `id` with at least one
defined field (absent ids, `undefined` shadows, singleton-root fallback
records and all-`undefined` records are no-ops). -/
def rootDeletable (ctx : Ctx) (data : List (String × Option StoreObject))
    (id : String) : Bool :=
  match alookup data id with
  | some (some rec) => hasDefinedField rec
  | _ => false

theorem rootDeletable_congr (ctx : Ctx) (d₁ d₂ : List (String × Option StoreObject))
    (k : String) (h : alookup d₁ k = alookup d₂ k) :
    rootDeletable ctx d₁ k = rootDeletable ctx d₂ k := by
  simp [rootDeletable, h]

theorem modFieldChanged_all_del :
    modFieldChanged (.all delModifier) = fun p => decide (p.2 ≠ SVal.undef) := by
  funext p
  simp [modFieldChanged, resolveModifier, delModifier]

theorem modMakesUndef_all_del :
    modMakesUndef (.all delModifier) = fun _ => true := by
  funext p
  simp [modMakesUndef, resolveModifier, delModifier]

/-- Reachability through the snapshot: an id is reachable when it is a
GC root, or a child reference of a reachable id that the snapshot still
holds. -/
inductive Reach (c : Chain) (snap0 : List (String × Option StoreObject))
    (roots : List String) : String → Prop where
  | root {i : String} : i ∈ roots → Reach c snap0 roots i
  | step {a b : String} : Reach c snap0 roots a → amem snap0 a = true →
      b ∈ childOf c a → Reach c snap0 roots b

theorem gcMark_chain (c : Chain) (snap : List (String × Option StoreObject))
    (queue seen : List String) :
    (gcMark c snap queue seen).2.2.layersData = c.layersData ∧
    (gcMark c snap queue seen).2.2.rootState.data = c.rootState.data := by
  induction c, snap, queue, seen using gcMark.induct with
  | case1 c snap seen =>
      simp [gcMark]
  | case2 c snap seen hd tl h r newIds ih =>
      rw [gcMark]
      simp only [dif_pos h]
      exact ⟨ih.1.trans (findChildRefIds_layersData c hd),
        ih.2.trans (findChildRefIds_rootData c hd)⟩
  | case3 c snap seen hd tl h ih =>
      rw [gcMark]
      simp only [dif_neg h]
      exact ih

theorem gcMark_spec (c0 : Chain) (snap0 : List (String × Option StoreObject))
    (roots : List String) (c : Chain)
    (snap : List (String × Option StoreObject)) (queue seen : List String) :
    (∀ j, childOf c j = childOf c0 j) →
    (∀ i, i ∈ queue → i ∈ seen) →
    (∀ i, i ∈ seen → Reach c0 snap0 roots i) →
    (∀ i, i ∈ roots → i ∈ seen) →
    (∀ i, amem snap i = true → amem snap0 i = true) →
    (∀ i, i ∈ seen → i ∉ queue → amem snap i = false) →
    (∀ i, amem snap0 i = true → amem snap i = false →
      i ∈ seen ∧ ∀ b, b ∈ childOf c0 i → b ∈ seen) →
    (∀ i, i ∈ (gcMark c snap queue seen).2.1 → Reach c0 snap0 roots i) ∧
    (∀ i, i ∈ roots → i ∈ (gcMark c snap queue seen).2.1) ∧
    (∀ i, i ∈ (gcMark c snap queue seen).2.1 →
      amem (gcMark c snap queue seen).1 i = false) ∧
    (∀ i, amem (gcMark c snap queue seen).1 i = true → amem snap0 i = true) ∧
    (∀ i, amem snap0 i = true → amem (gcMark c snap queue seen).1 i = false →
      i ∈ (gcMark c snap queue seen).2.1 ∧
      ∀ b, b ∈ childOf c0 i → b ∈ (gcMark c snap queue seen).2.1) := by
  induction c, snap, queue, seen using gcMark.induct with
  | case1 c snap seen =>
      intro _ _ g3 g4 g5 g6 g7
      rw [gcMark]
      exact ⟨g3, g4, fun i hi => g6 i hi (List.not_mem_nil i), g5, g7⟩
  | case2 c snap seen hd tl h r newIds ih =>
      intro g1 g2 g3 g4 g5 g6 g7
      have hfst : (EntityStore.findChildRefIds c hd).1 = childOf c0 hd :=
        (findChildRefIds_fst c hd).trans (g1 hd)
      have hhdseen : hd ∈ seen := g2 hd (List.mem_cons_self hd tl)
      have hreachhd : Reach c0 snap0 roots hd := g3 hd hhdseen
      have hsnap0hd : amem snap0 hd = true := g5 hd h
      have hnew : ∀ i, i ∈ List.filter (fun x => !seen.contains x)
          (EntityStore.findChildRefIds c hd).1 →
          i ∈ childOf c0 hd ∧ i ∉ seen := by
        intro i hi
        rw [List.mem_filter] at hi
        refine ⟨hfst ▸ hi.1, ?_⟩
        intro hmem
        have := hi.2
        rw [Bool.not_eq_true', ← Bool.not_eq_true] at this
        exact this ((contains_iff_mem seen i).2 hmem)
      have hchild_split : ∀ b, b ∈ childOf c0 hd →
          b ∈ seen ++ List.filter (fun x => !seen.contains x)
            (EntityStore.findChildRefIds c hd).1 := by
        intro b hb
        rw [List.mem_append]
        by_cases hbs : b ∈ seen
        · exact Or.inl hbs
        · refine Or.inr ?_
          rw [List.mem_filter]
          refine ⟨hfst ▸ hb, ?_⟩
          simp only [Bool.not_eq_eq_eq_not, Bool.not_true, ← Bool.not_eq_true]
          intro hc
          exact hbs ((contains_iff_mem seen b).1 hc)
      have n1 : ∀ j, childOf (EntityStore.findChildRefIds c hd).2 j = childOf c0 j :=
        fun j => (childOf_findChild c hd j).trans (g1 j)
      have n2 : ∀ i, i ∈ tl ++ List.filter (fun x => !seen.contains x)
          (EntityStore.findChildRefIds c hd).1 →
          i ∈ seen ++ List.filter (fun x => !seen.contains x)
            (EntityStore.findChildRefIds c hd).1 := by
        intro i hi
        rw [List.mem_append] at hi ⊢
        cases hi with
        | inl hi => exact Or.inl (g2 i (List.mem_cons_of_mem hd hi))
        | inr hi => exact Or.inr hi
      have n3 : ∀ i, i ∈ seen ++ List.filter (fun x => !seen.contains x)
          (EntityStore.findChildRefIds c hd).1 → Reach c0 snap0 roots i := by
        intro i hi
        rw [List.mem_append] at hi
        cases hi with
        | inl hi => exact g3 i hi
        | inr hi => exact Reach.step hreachhd hsnap0hd (hnew i hi).1
      have n4 : ∀ i, i ∈ roots →
          i ∈ seen ++ List.filter (fun x => !seen.contains x)
            (EntityStore.findChildRefIds c hd).1 :=
        fun i hi => List.mem_append.2 (Or.inl (g4 i hi))
      have n5 : ∀ i, amem (aremove snap hd) i = true → amem snap0 i = true := by
        intro i hi
        rw [amem_aremove] at hi
        by_cases he : i = hd
        · rw [if_pos he] at hi; cases hi
        · rw [if_neg he] at hi; exact g5 i hi
      have n6 : ∀ i, i ∈ seen ++ List.filter (fun x => !seen.contains x)
          (EntityStore.findChildRefIds c hd).1 →
          i ∉ tl ++ List.filter (fun x => !seen.contains x)
            (EntityStore.findChildRefIds c hd).1 →
          amem (aremove snap hd) i = false := by
        intro i hi hni
        rw [List.mem_append] at hi
        rw [amem_aremove]
        by_cases he : i = hd
        · rw [if_pos he]
        · rw [if_neg he]
          have hins : i ∈ seen := by
            cases hi with
            | inl hi => exact hi
            | inr hi => exact absurd (List.mem_append.2 (Or.inr hi)) hni
          refine g6 i hins ?_
          intro hq
          cases List.mem_cons.1 hq with
          | inl hq => exact he hq
          | inr hq => exact hni (List.mem_append.2 (Or.inl hq))
      have n7 : ∀ i, amem snap0 i = true → amem (aremove snap hd) i = false →
          (i ∈ seen ++ List.filter (fun x => !seen.contains x)
            (EntityStore.findChildRefIds c hd).1 ∧
           ∀ b, b ∈ childOf c0 i →
            b ∈ seen ++ List.filter (fun x => !seen.contains x)
              (EntityStore.findChildRefIds c hd).1) := by
        intro i h0 hrm
        rw [amem_aremove] at hrm
        by_cases he : i = hd
        · subst he
          exact ⟨List.mem_append.2 (Or.inl hhdseen), hchild_split⟩
        · rw [if_neg he] at hrm
          obtain ⟨his, hch⟩ := g7 i h0 hrm
          exact ⟨List.mem_append.2 (Or.inl his),
            fun b hb => List.mem_append.2 (Or.inl (hch b hb))⟩
      have H := ih n1 n2 n3 n4 n5 n6 n7
      rw [gcMark]
      simp only [dif_pos h]
      exact H
  | case3 c snap seen hd tl h ih =>
      intro g1 g2 g3 g4 g5 g6 g7
      have hhdfalse : amem snap hd = false := by
        cases hb : amem snap hd
        · rfl
        · exact absurd hb h
      have m2 : ∀ i, i ∈ tl → i ∈ seen :=
        fun i hi => g2 i (List.mem_cons_of_mem hd hi)
      have m6 : ∀ i, i ∈ seen → i ∉ tl → amem snap i = false := by
        intro i hi hni
        by_cases he : i = hd
        · subst he; exact hhdfalse
        · refine g6 i hi ?_
          intro hq
          cases List.mem_cons.1 hq with
          | inl hq => exact he hq
          | inr hq => exact hni hq
      have H := ih g1 m2 g3 g4 g5 m6 g7
      rw [gcMark]
      simp only [dif_neg h]
      exact H

theorem gcMark_final (c : Chain) (snap0 : List (String × Option StoreObject))
    (roots : List String) (i : String) :
    i ∈ akeys (gcMark c snap0 roots roots).1 ↔
      (amem snap0 i = true ∧ ¬ Reach c snap0 roots i) := by
  obtain ⟨B, E, D1, F, D2⟩ := gcMark_spec c snap0 roots c snap0 roots roots
    (fun _ => rfl) (fun _ h => h) (fun _ h => Reach.root h) (fun _ h => h)
    (fun _ h => h) (fun i hi hni => absurd hi hni)
    (fun i h0 hf => absurd h0 (by rw [hf]; exact Bool.false_ne_true))
  have reach_seen : ∀ j, Reach c snap0 roots j →
      j ∈ (gcMark c snap0 roots roots).2.1 := by
    intro j hr
    induction hr with
    | root h => exact E _ h
    | step ha hs hb ih => exact (D2 _ hs (D1 _ ih)).2 _ hb
  rw [mem_akeys_iff_amem]
  constructor
  · intro hmem
    refine ⟨F i hmem, ?_⟩
    intro hr
    have hfalse := D1 i (reach_seen i hr)
    rw [hfalse] at hmem
    cases hmem
  · rintro ⟨h0, hnr⟩
    cases hb : amem (gcMark c snap0 roots roots).1 i
    · exact absurd (B i (D2 i h0 hb).1) hnr
    · rfl

theorem merge_root_shape (ctx : Ctx) (s : StoreState) (id : String)
    (inc : StoreObject) :
    ∃ s₁ ev X, EntityStore.merge ctx (Chain.root s) (.inl id) (.inr inc) =
        .ok (Chain.root s₁, ev) ∧
      s₁.data = aset s.data id (some X) := by
  cases hch : (DeepMerger.merge (EntityStore.lookup ctx (Chain.root s) id) inc).2 with
  | true =>
      have hm : ∃ ev,
          EntityStore.merge ctx (Chain.root s) (.inl id) (.inr inc) =
          .ok (Chain.root { s with
            data := aset s.data id (some
              (if (EntityStore.lookup ctx (Chain.root s) id).isSome &&
                  !(Chain.root s).isLayer then
                dropUndefinedKeysAtRoot inc
                  (DeepMerger.merge (EntityStore.lookup ctx (Chain.root s) id) inc).1
              else
                (DeepMerger.merge (EntityStore.lookup ctx (Chain.root s) id) inc).1)),
            refs := aremove s.refs id }, ev) := by
        simp only [EntityStore.merge, hch]
        exact ⟨_, rfl⟩
      obtain ⟨ev, hm⟩ := hm
      exact ⟨_, ev, _, hm, rfl⟩
  | false =>
      have hm : ∃ ev,
          EntityStore.merge ctx (Chain.root s) (.inl id) (.inr inc) =
          .ok (Chain.root { s with
            data := aset s.data id (some
              (DeepMerger.merge (EntityStore.lookup ctx (Chain.root s) id) inc).1) },
            ev) := by
        simp only [EntityStore.merge, hch]
        exact ⟨_, rfl⟩
      obtain ⟨ev, hm⟩ := hm
      exact ⟨_, ev, _, hm, rfl⟩

theorem lookup_root_deletable (ctx : Ctx) (s : StoreState) (id : String)
    (rec : StoreObject)
    (h : EntityStore.lookup ctx (Chain.root s) id = some rec) :
    rootDeletable ctx s.data id = hasDefinedField rec := by
  simp only [EntityStore.lookup] at h
  cases hd : alookup s.data id with
  | some v =>
      rw [hd] at h
      simp only at h
      subst h
      simp [rootDeletable, hd]
  | none =>
      rw [hd] at h
      simp only at h
      cases ht : alookup ctx.policies.rootTypenamesById id with
      | none => rw [ht] at h; simp at h
      | some t =>
          rw [ht] at h
          simp only at h
          by_cases hne : t ≠ ""
          · rw [if_pos hne] at h
            have : rec = [] := by
              cases h; rfl
            subst this
            simp [rootDeletable, hd, hasDefinedField]
          · rw [if_neg hne] at h
            cases h

theorem lookup_root_none_deletable (ctx : Ctx) (s : StoreState) (id : String)
    (h : EntityStore.lookup ctx (Chain.root s) id = none) :
    rootDeletable ctx s.data id = false := by
  simp only [EntityStore.lookup] at h
  cases hd : alookup s.data id with
  | some v =>
      rw [hd] at h
      simp only at h
      subst h
      simp [rootDeletable, hd]
  | none => simp [rootDeletable, hd]

theorem root_delete_effect (ctx : Ctx) (s : StoreState) (id : String) :
    ∃ s', (EntityStore.delete ctx (Chain.root s) id none none).1 = Chain.root s' ∧
      ∀ k, alookup s'.data k =
        if k = id ∧ rootDeletable ctx s.data id = true then none
        else alookup s.data k := by
  cases hlk : EntityStore.lookup ctx (Chain.root s) id with
  | none =>
      refine ⟨s, ?_, ?_⟩
      · simp [EntityStore.delete, hlk]
      · intro k
        rw [lookup_root_none_deletable ctx s id hlk]
        simp
  | some rec =>
      have hdel : rootDeletable ctx s.data id = hasDefinedField rec :=
        lookup_root_deletable ctx s id rec hlk
      have hd2 : EntityStore.delete ctx (Chain.root s) id none none =
          EntityStore.modify ctx (Chain.root s) id (.all delModifier) := by
        simp [EntityStore.delete, hlk]
      rw [hd2]
      simp only [EntityStore.modify, hlk]
      generalize hacc : List.foldl
        (modifyStep (Chain.group ctx (Chain.root s)) id (.all delModifier))
        ⟨[], false, true, []⟩ rec = A
      have hn : A.needToMerge = rec.any (fun p => decide (p.2 ≠ SVal.undef)) := by
        rw [← hacc, modify_fold_needToMerge, modFieldChanged_all_del]
        simp
      have ha : A.allDeleted = true := by
        rw [← hacc, modify_fold_allDeleted, modMakesUndef_all_del]
        simp
      cases hdef : hasDefinedField rec with
      | false =>
          have hn' : A.needToMerge = false := by
            rw [hn]; exact hdef
          rw [hn']
          refine ⟨s, rfl, ?_⟩
          intro k
          rw [hdel, hdef]
          simp
      | true =>
          have hn' : A.needToMerge = true := by
            rw [hn]; exact hdef
          rw [hn']
          obtain ⟨s₁, ev, X, hmr, hdata⟩ := merge_root_shape ctx s id A.changedFields
          rw [hmr, ha]
          refine ⟨{ s₁ with data := aremove s₁.data id }, rfl, ?_⟩
          intro k
          by_cases hk : k = id
          · subst hk
            simp only [alookup_aremove_self]
            rw [hdel, hdef]
            simp
          · simp only [alookup_aremove_ne s₁.data id k (fun e => hk e.symm)]
            rw [hdata, alookup_aset_ne s.data id k _ (fun e => hk e.symm)]
            rw [hdel, hdef]
            simp [hk]

theorem gc_fold_root (ctx : Ctx) :
    ∀ (ids : List String) (s : StoreState) (ev : List Evt),
      ∃ s' ev',
        ids.foldl (fun acc id =>
            let r := EntityStore.delete ctx acc.1 id none none
            (r.1, acc.2 ++ r.2.1)) (Chain.root s, ev) = (Chain.root s', ev') ∧
        ∀ k, alookup s'.data k =
          if k ∈ ids ∧ rootDeletable ctx s.data k = true then none
          else alookup s.data k := by
  intro ids
  induction ids with
  | nil =>
      intro s ev
      refine ⟨s, ev, rfl, ?_⟩
      intro k
      simp
  | cons id rest ih =>
      intro s ev
      obtain ⟨s₁, h₁, hchar₁⟩ := root_delete_effect ctx s id
      obtain ⟨s₂, ev₂, hfold, hchar₂⟩ :=
        ih s₁ (ev ++ (EntityStore.delete ctx (Chain.root s) id none none).2.1)
      refine ⟨s₂, ev₂, ?_, ?_⟩
      · simp only [List.foldl_cons]
        rw [show (let r := EntityStore.delete ctx (Chain.root s) id none none
            ((r.1 : Chain), ev ++ r.2.1)) =
            (Chain.root s₁,
             ev ++ (EntityStore.delete ctx (Chain.root s) id none none).2.1) from by
          rw [← h₁]]
        exact hfold
      · intro k
        have hdcongr : rootDeletable ctx s₁.data k = if k = id ∧
            rootDeletable ctx s.data id = true then false
            else rootDeletable ctx s.data k := by
          by_cases hk : k = id ∧ rootDeletable ctx s.data id = true
          · rw [if_pos hk]
            have : alookup s₁.data k = none := by rw [hchar₁ k, if_pos hk]
            simp [rootDeletable, this]
          · rw [if_neg hk]
            exact rootDeletable_congr ctx s₁.data s.data k
              (by rw [hchar₁ k, if_neg hk])
        rw [hchar₂ k]
        by_cases hk : k = id ∧ rootDeletable ctx s.data id = true
        · obtain ⟨hke, hkd⟩ := hk
          subst hke
          have hdel1 : rootDeletable ctx s₁.data k = false := by
            rw [hdcongr, if_pos ⟨rfl, hkd⟩]
          have hc1 : ¬(k ∈ rest ∧ (false : Bool) = true) :=
            fun hcontra => Bool.false_ne_true hcontra.2
          rw [hdel1, if_neg hc1, hchar₁ k, if_pos ⟨rfl, hkd⟩,
            if_pos ⟨List.mem_cons_self k rest, hkd⟩]
        · have hdel1 : rootDeletable ctx s₁.data k = rootDeletable ctx s.data k := by
            rw [hdcongr, if_neg hk]
          rw [hdel1, hchar₁ k, if_neg hk]
          by_cases h2 : k ∈ rest ∧ rootDeletable ctx s.data k = true
          · rw [if_pos h2, if_pos ⟨List.mem_cons_of_mem id h2.1, h2.2⟩]
          · rw [if_neg h2]
            have : ¬(k ∈ id :: rest ∧ rootDeletable ctx s.data k = true) := by
              rintro ⟨hmem, hdk⟩
              cases List.mem_cons.1 hmem with
              | inl he =>
                  subst he
                  exact hk ⟨rfl, hdk⟩
              | inr he => exact h2 ⟨he, hdk⟩
            rw [if_neg this]

theorem rootState_setRootState (c : Chain) (s : StoreState) :
    (Chain.setRootState c s).rootState = s := by
  induction c with
  | root _ => rfl
  | layer lid st s' parent ih => simp [Chain.setRootState, Chain.rootState, ih]

theorem layersData_setRootState (c : Chain) (s : StoreState) :
    (Chain.setRootState c s).layersData = c.layersData := by
  induction c with
  | root _ => rfl
  | layer lid st s' parent ih => simp [Chain.setRootState, Chain.layersData, ih]

/-- **C4 (amended).** For every store (Root, Stump, or any Layer) on which
`gc()` is invoked: the returned removal list is exactly the set of
snapshot ids unreachable from the computed root id set; no Layer's local
entity partition is modified; and all deletions happen in the Root
partition, where a listed id's `data` key is removed exactly when the
Root resolves it to a record with at least one defined field — a listed
id whose record is empty (or all-`undefined`) survives, because the
delete's field loop finds nothing to change and returns without
modifying anything. -/
theorem gc_amended_general (ctx : Ctx) (c : Chain) :
    (∀ i, i ∈ (EntityStore.gc ctx c).1 ↔
      (amem (EntityStore.toObject c) i = true ∧
       ¬ Reach c (EntityStore.toObject c) (EntityStore.getRootIdSet ctx c) i)) ∧
    (EntityStore.gc ctx c).2.1.layersData = c.layersData ∧
    (∀ k, alookup (EntityStore.gc ctx c).2.1.rootState.data k =
      if k ∈ (EntityStore.gc ctx c).1 ∧
          rootDeletable ctx c.rootState.data k = true then none
      else alookup c.rootState.data k) := by
  obtain ⟨s', ev', hfold, hchar⟩ := gc_fold_root ctx
    (akeys (gcMark c (EntityStore.toObject c) (EntityStore.getRootIdSet ctx c)
      (EntityStore.getRootIdSet ctx c)).1)
    ((gcMark c (EntityStore.toObject c) (EntityStore.getRootIdSet ctx c)
      (EntityStore.getRootIdSet ctx c)).2.2.rootState) []
  have hgc : EntityStore.gc ctx c =
      (akeys (gcMark c (EntityStore.toObject c) (EntityStore.getRootIdSet ctx c)
        (EntityStore.getRootIdSet ctx c)).1,
       Chain.setRootState (gcMark c (EntityStore.toObject c)
        (EntityStore.getRootIdSet ctx c) (EntityStore.getRootIdSet ctx c)).2.2 s',
       ev') := by
    simp only [EntityStore.gc]
    rw [hfold]
    rfl
  rw [hgc]
  have hchain := gcMark_chain c (EntityStore.toObject c)
    (EntityStore.getRootIdSet ctx c) (EntityStore.getRootIdSet ctx c)
  refine ⟨?_, ?_, ?_⟩
  · intro i
    exact gcMark_final c (EntityStore.toObject c) (EntityStore.getRootIdSet ctx c) i
  · rw [layersData_setRootState]
    exact hchain.1
  · intro k
    rw [rootState_setRootState, hchar k, hchain.2]

def c4ctx : Ctx := ⟨⟨[], fun _ _ => false⟩, true⟩

def c4root : Chain := Chain.root ⟨[("A", some [])], [], []⟩

/-- **C4 (counterexample to the frozen claim).** A Root owning a single
empty record `A: {}` and no GC roots: `gc()` returns the removal list
`["A"]`, yet `A` is NOT deleted from the Root partition — `delete`
iterates over the record's (zero) fields, finds no change, and no-ops —
so "every id in the returned removal list is deleted from the Root
partition" fails. -/
theorem gc_empty_record_counterexample :
    (EntityStore.gc c4ctx c4root).1 = ["A"] ∧
    alookup (EntityStore.gc c4ctx c4root).2.1.rootState.data "A" =
      some (some []) := by
  constructor <;>
    simp +decide [EntityStore.gc, gcMark, EntityStore.getRootIdSet,
      EntityStore.getRootIdSetAux, unionKeys, dedupKeys, EntityStore.toObject,
      EntityStore.delete, EntityStore.modify, EntityStore.lookup, modifyStep,
      Chain.group, Chain.headState, Chain.setHeadState, Chain.rootState,
      Chain.setRootState, Chain.layersData, spreadOver, alookup, aset, aremove,
      amem, akeys, c4ctx, c4root]
